import Mathlib

/-!
Formal model of the notes-tools pipeline (export.py, publish.py,
publish-simple.py): a shallow embedding of the protobuf wire decoder, the
style-run extractor, the block segmenter, the run merger, the HTML renderer
helpers, the footnote processor, the template engine and the batch
bookkeeping, together with theorems settling the specification claims.

Python strings are sequences of Unicode code points and are modelled as
`List Char`; byte buffers are modelled as `List Nat` with entries below 256.
Python functions that can raise an uncaught exception are modelled in
`Except Unit`.
-/

/-- Python `str` values, as lists of code points. -/
abbrev Str := List Char

/-- The code points of a Lean string literal, used for Python string constants. -/
def str (s : String) : Str := s.data

/-- Python slicing `s[start : start + length]` for non-negative indices
(clamping at the end of the string). -/
def pySlice (s : Str) (start length : Nat) : Str := (s.drop start).take length

/-- The characters Python treats as whitespace in `str.strip` and in `\s`. -/
def isPySpace (c : Char) : Bool :=
  c == ' ' || c == '\t' || c == '\n' || c == '\r' || c == Char.ofNat 11 || c == Char.ofNat 12

/-- Python `str.strip()` with no argument: remove leading and trailing whitespace. -/
def pyStrip (s : Str) : Str :=
  ((s.dropWhile isPySpace).reverse.dropWhile isPySpace).reverse

/-- Python `str.rstrip("\n")`: remove trailing newline characters. -/
def pyRstripNl (s : Str) : Str := (s.reverse.dropWhile (· == '\n')).reverse

/-- Whether `pat` occurs as a contiguous substring of `s`. -/
def occursIn (pat : Str) : Str → Bool
  | [] => pat.isEmpty
  | c :: rest => pat.isPrefixOf (c :: rest) || occursIn pat rest

/-- Scanning loop of Python `str.replace` for a non-empty pattern: replace
non-overlapping occurrences left to right.  The fuel argument bounds the
number of scanning steps; callers pass the length of the string, which is
always sufficient because every step consumes at least one character. -/
def pyReplaceGo (pat rep : Str) : Nat → Str → Str
  | _, [] => []
  | 0, s => s
  | fuel + 1, c :: rest =>
    if pat.isPrefixOf (c :: rest) then rep ++ pyReplaceGo pat rep fuel ((c :: rest).drop pat.length)
    else c :: pyReplaceGo pat rep fuel rest

/-- Python `s.replace(pat, rep)` (all occurrences; for an empty pattern Python
inserts `rep` at every position). -/
def pyReplace (s pat rep : Str) : Str :=
  if pat.isEmpty then rep ++ (s.map (fun c => c :: rep)).flatten
  else pyReplaceGo pat rep s.length s

/-- Scanning loop of Python `str.split` for a non-empty separator. -/
def pySplitGo (sep : Str) : Nat → Str → List Str
  | _, [] => [[]]
  | 0, s => [s]
  | fuel + 1, c :: rest =>
    if sep.isPrefixOf (c :: rest) then [] :: pySplitGo sep fuel ((c :: rest).drop sep.length)
    else
      match pySplitGo sep fuel rest with
      | [] => [[c]]
      | p :: ps => (c :: p) :: ps

/-- Python `s.split(sep)` for a non-empty separator. -/
def pySplit (s sep : Str) : List Str := pySplitGo sep s.length s

/-- Python `s.split("\n", 1)`: the part before the first newline, and the
rest of the string when a newline exists. -/
def split_once_nl : Str → Str × Option Str
  | [] => ([], none)
  | c :: rest =>
    if c = '\n' then ([], some rest)
    else
      let p := split_once_nl rest
      (c :: p.1, p.2)

/-- Python `dict` assignment `d[k] = v`: replace the value at an existing key
in place, otherwise append the new binding. -/
def dictSet {V : Type} (d : List (Str × V)) (k : Str) (v : V) : List (Str × V) :=
  if d.any (fun kv => decide (kv.1 = k)) then
    d.map (fun kv => if kv.1 = k then (k, v) else kv)
  else d ++ [(k, v)]

/-- Python `dict` lookup `d[k]` as an option (first binding with the key). -/
def dictGet? {V : Type} (d : List (Str × V)) (k : Str) : Option V :=
  (d.find? (fun kv => decide (kv.1 = k))).map (·.2)

namespace NotesExport

/-- A decoded protobuf value: wire types 0, 1 and 5 carry an integer, wire
type 2 carries raw bytes (`value` in `ProtobufParser.read_field`). -/
inductive PBValue where
  | vint (n : Nat)
  | bytes (bs : List Nat)
deriving DecidableEq

/-- A decoded field triple `(field_number, wire_type, value)`. -/
abbrev PBField := Nat × Nat × PBValue

/-- Loop body of `ProtobufParser.read_varint`: accumulate 7-bit groups
little-endian while the continuation bit is set; `ValueError` when the buffer
ends mid-sequence.  The fuel bounds the iterations; one plus the buffer
length is always enough because each iteration consumes a byte. -/
def read_varint_go (data : List Nat) : Nat → Nat → Nat → Nat → Except Unit (Nat × Nat)
  | 0, _, _, _ => .error ()
  | fuel + 1, pos, shift, acc =>
    match data[pos]? with
    | none => .error ()
    | some b =>
      let acc2 := acc ||| ((b &&& 0x7F) <<< shift)
      if b &&& 0x80 == 0 then .ok (acc2, pos + 1)
      else read_varint_go data fuel (pos + 1) (shift + 7) acc2

/-- `ProtobufParser.read_varint`, returning the value and the new position. -/
def read_varint (data : List Nat) (pos : Nat) : Except Unit (Nat × Nat) :=
  read_varint_go data (data.length + 1) pos 0 0

/-- `ProtobufParser.read_bytes`: a fixed number of bytes, `ValueError` if not
enough remain. -/
def read_bytes (data : List Nat) (pos length : Nat) : Except Unit (List Nat × Nat) :=
  if pos + length ≤ data.length then .ok ((data.drop pos).take length, pos + length)
  else .error ()

/-- Little-endian interpretation of a byte list (`struct.unpack("<Q", ...)`/
`struct.unpack("<I", ...)`). -/
def le_bytes_to_nat : List Nat → Nat
  | [] => 0
  | b :: rest => b + 256 * le_bytes_to_nat rest

/-- `ProtobufParser.read_field`: `(None, pos)` at the end of the buffer, the
decoded field and new position otherwise; `ValueError` (`.error`) on a
truncated read or an unknown wire type. -/
def read_field (data : List Nat) (pos : Nat) : Except Unit (Option PBField × Nat) :=
  if pos ≥ data.length then .ok (none, pos)
  else do
    let tw ← read_varint data pos
    let tag_wire := tw.1
    let pos1 := tw.2
    let field_number := tag_wire >>> 3
    let wire_type := tag_wire &&& 0x07
    if wire_type = 0 then do
      let r ← read_varint data pos1
      .ok (some (field_number, wire_type, .vint r.1), r.2)
    else if wire_type = 1 then do
      let r ← read_bytes data pos1 8
      .ok (some (field_number, wire_type, .vint (le_bytes_to_nat r.1)), r.2)
    else if wire_type = 2 then do
      let l ← read_varint data pos1
      let r ← read_bytes data l.2 l.1
      .ok (some (field_number, wire_type, .bytes r.1), r.2)
    else if wire_type = 5 then do
      let r ← read_bytes data pos1 4
      .ok (some (field_number, wire_type, .vint (le_bytes_to_nat r.1)), r.2)
    else .error ()

/-- Loop of `ProtobufParser.parse_all`: read fields while the buffer is not
exhausted, stopping (and keeping the fields decoded so far) on a failed
read.  The fuel bounds the iterations; the buffer length is always enough
because every successful `read_field` advances the position. -/
def parse_all_go (data : List Nat) : Nat → Nat → List PBField
  | 0, _ => []
  | fuel + 1, pos =>
    if pos < data.length then
      match read_field data pos with
      | .error _ => []
      | .ok (none, _) => []
      | .ok (some f, pos2) => f :: parse_all_go data fuel pos2
    else []

/-- `ProtobufParser.parse_all`: all fields decodable from the start of the
buffer; decode errors are swallowed, never propagated. -/
def parse_all (data : List Nat) : List PBField := parse_all_go data data.length 0

/-- `parse_all_fields`: parse a byte buffer with a fresh parser. -/
def parse_all_fields (data : List Nat) : List PBField := parse_all data

/-- `get_note_content_fields`: find the first root field 2 (document) whose
bytes contain a field 3 (note content), and parse that; empty list when any
hop is missing.  (`parse_all` only ever pairs wire type 2 with a bytes
value, so matching on `.bytes` is exact.) -/
def get_note_content_fields (data : List Nat) : List PBField :=
  ((parse_all_fields data).findSome? (fun f =>
    match f with
    | (2, 2, .bytes v) =>
      (parse_all_fields v).findSome? (fun g =>
        match g with
        | (3, 2, .bytes w) => some (parse_all_fields w)
        | _ => none)
    | _ => none)).getD []

/-- Strict UTF-8 decoding as performed by Python `bytes.decode("utf-8")`:
the well-formed byte sequences of Unicode Table 3-7 (no overlong forms, no
surrogates, no code points beyond U+10FFFF); `none` on any ill-formed input. -/
def utf8_decode : List Nat → Option Str
  | [] => some []
  | b :: rest =>
    if b < 0x80 then (utf8_decode rest).map (Char.ofNat b :: ·)
    else if 0xC2 ≤ b ∧ b ≤ 0xDF then
      match rest with
      | c1 :: rest1 =>
        if 0x80 ≤ c1 ∧ c1 ≤ 0xBF then
          (utf8_decode rest1).map (Char.ofNat ((b - 0xC0) * 64 + (c1 - 0x80)) :: ·)
        else none
      | [] => none
    else if 0xE0 ≤ b ∧ b ≤ 0xEF then
      match rest with
      | c1 :: c2 :: rest2 =>
        let lo1 := if b = 0xE0 then 0xA0 else 0x80
        let hi1 := if b = 0xED then 0x9F else 0xBF
        if (lo1 ≤ c1 ∧ c1 ≤ hi1) ∧ (0x80 ≤ c2 ∧ c2 ≤ 0xBF) then
          (utf8_decode rest2).map
            (Char.ofNat ((b - 0xE0) * 4096 + (c1 - 0x80) * 64 + (c2 - 0x80)) :: ·)
        else none
      | _ => none
    else if 0xF0 ≤ b ∧ b ≤ 0xF4 then
      match rest with
      | c1 :: c2 :: c3 :: rest3 =>
        let lo1 := if b = 0xF0 then 0x90 else 0x80
        let hi1 := if b = 0xF4 then 0x8F else 0xBF
        if (lo1 ≤ c1 ∧ c1 ≤ hi1) ∧ (0x80 ≤ c2 ∧ c2 ≤ 0xBF) ∧ (0x80 ≤ c3 ∧ c3 ≤ 0xBF) then
          (utf8_decode rest3).map
            (Char.ofNat ((b - 0xF0) * 262144 + (c1 - 0x80) * 4096 + (c2 - 0x80) * 64 + (c3 - 0x80)) :: ·)
        else none
      | _ => none
    else none

/-- `extract_main_text`: the first note-content field 2 whose bytes decode as
UTF-8; empty text when none does. -/
def extract_main_text (data : List Nat) : Str :=
  ((get_note_content_fields data).findSome? (fun f =>
    match f with
    | (2, 2, .bytes v) => utf8_decode v
    | _ => none)).getD []

/-- The attribute record accumulated for one style run (the `run` dict in
`extract_style_runs`), with the defaults of the source. -/
structure RunRec where
  length : PBValue
  para_style : PBValue
  text_style : PBValue
  is_blockquote : Bool
  is_superscript : Bool
  is_underline : Bool
  is_strikethrough : Bool
  link_url : Option Str
deriving DecidableEq

/-- The initial `run` dict of `extract_style_runs`. -/
def runRecDefault : RunRec := ⟨.vint 0, .vint 0, .vint 0, false, false, false, false, none⟩

/-- Python truthiness (`bool(...)`) of a decoded value: a non-zero integer or
a non-empty bytes object. -/
def pyTruthy : PBValue → Bool
  | .vint n => n != 0
  | .bytes bs => !bs.isEmpty

/-- One step of the character-attribute loop (sub-fields of field 2 of a
style run). -/
def apply_attr (r : RunRec) (f : PBField) : RunRec :=
  if f.1 = 1 then { r with para_style := f.2.2 }
  else if f.1 = 5 then { r with is_underline := pyTruthy f.2.2 }
  else if f.1 = 6 then { r with is_strikethrough := pyTruthy f.2.2 }
  else if f.1 = 8 then { r with is_blockquote := pyTruthy f.2.2 }
  else r

/-- One step of the style-field loop of `extract_style_runs`.  Field 2 with a
non-bytes value makes the Python `parse_all_fields(sval)` raise `TypeError`
(modelled as `.error`); a field 9 link URL is kept only when it is a bytes
value that decodes as UTF-8. -/
def apply_style_field (r : RunRec) (f : PBField) : Except Unit RunRec :=
  if f.1 = 1 then .ok { r with length := f.2.2 }
  else if f.1 = 2 then
    match f.2.2 with
    | .bytes bs => .ok ((parse_all_fields bs).foldl apply_attr r)
    | .vint _ => .error ()
  else if f.1 = 5 then .ok { r with text_style := f.2.2 }
  else if f.1 = 8 then .ok { r with is_superscript := pyTruthy f.2.2 }
  else if f.1 = 9 then
    match f.2.2 with
    | .bytes bs =>
      match utf8_decode bs with
      | some s => .ok { r with link_url := some s }
      | none => .ok r
    | .vint _ => .ok r
  else .ok r

/-- Parse one style-run record (the bytes of one note-content field 5). -/
def parse_run_record (v : List Nat) : Except Unit RunRec :=
  (parse_all_fields v).foldlM apply_style_field runRecDefault

/-- A run of text with its formatting, as produced by `extract_style_runs`
(the `StyleRun` dataclass).  `paragraph_style` and `text_style` keep the raw
decoded value, exactly as the Python object stores whatever was decoded. -/
structure StyleRun where
  start : Nat
  length : Nat
  text : Str
  paragraph_style : PBValue
  text_style : PBValue
  is_blockquote : Bool
  is_superscript : Bool
  is_underline : Bool
  is_strikethrough : Bool
  link_url : Option Str
deriving DecidableEq

/-- `StyleRun.is_bold`: the text style equals `TEXT_STYLE_BOLD = 1`. -/
def StyleRun.is_bold (r : StyleRun) : Bool := r.text_style == PBValue.vint 1

/-- `StyleRun.is_italic`: the text style equals `TEXT_STYLE_ITALIC = 2`. -/
def StyleRun.is_italic (r : StyleRun) : Bool := r.text_style == PBValue.vint 2

/-- The cursor loop of `extract_style_runs` over the note-content fields:
for each field 5, parse the run record; a run with positive declared length
while the cursor is inside the text is sliced and appended and the cursor
advanced; other runs are discarded without moving the cursor.  A declared
length that is a bytes value makes the Python comparison `length > 0` raise
`TypeError` (modelled as `.error`), as does a field 5 whose value is not
bytes (`parse_all_fields` over an int). -/
def extract_runs_go (text : Str) : List PBField → Nat → Except Unit (List StyleRun)
  | [], _ => .ok []
  | f :: rest, pos =>
    if f.1 = 5 ∧ f.2.1 = 2 then
      match f.2.2 with
      | .bytes v => do
        let run ← parse_run_record v
        match run.length with
        | .bytes _ => .error ()
        | .vint length =>
          if length > 0 ∧ pos < text.length then do
            let tail ← extract_runs_go text rest (pos + length)
            .ok (⟨pos, length, pySlice text pos length, run.para_style, run.text_style,
                  run.is_blockquote, run.is_superscript, run.is_underline,
                  run.is_strikethrough, run.link_url⟩ :: tail)
          else extract_runs_go text rest pos
      | .vint _ => .error ()
    else extract_runs_go text rest pos

/-- `extract_style_runs`: formatting runs of a decoded record, sliced against
the given text by a running cursor. -/
def extract_style_runs (data : List Nat) (text : Str) : Except Unit (List StyleRun) :=
  extract_runs_go text (get_note_content_fields data) 0

/-- An internal link to another note (the `NoteLink` dataclass). -/
structure NoteLink where
  url : Str
  note_id : Str
  text : Str
deriving DecidableEq

/-- Parsed note content (the `ParsedNote` dataclass). -/
structure ParsedNote where
  title : Str
  text_content : Str
  style_runs : List StyleRun
  note_links : List NoteLink
  raw_data : List Nat
deriving DecidableEq

/-- The note-link loop of `parse_note_content`: runs whose link URL uses the
`applenotes:note/` scheme, with the identifier taken after the last `/` of
the part before `?`. -/
def links_of_runs (runs : List StyleRun) : List NoteLink :=
  runs.filterMap (fun run =>
    match run.link_url with
    | some url =>
      if (str "applenotes:note/").isPrefixOf url then
        let parts := pySplit ((pySplit url (str "?")).headD []) (str "/")
        if parts.length ≥ 2 then some ⟨url, parts.getLastD [], run.text⟩
        else none
      else none
    | none => none)

/-- The outcome of `gzip.decompress` on the compressed record, as CPython
behaves: `ok` with the decompressed bytes, `badGzipFile` when the stream does
not start with the gzip magic (`gzip.BadGzipFile`), and `otherError` for the
other exceptions the library raises on invalid streams (`EOFError` for a
truncated stream, `zlib.error` for corrupt deflate data). -/
inductive GzipResult where
  | ok (data : List Nat)
  | badGzipFile (compressed : List Nat)
  | otherError
deriving DecidableEq

/-- `parse_note_content`, taking the outcome of the `gzip.decompress` call it
performs on the compressed record.  Only `gzip.BadGzipFile` is caught (and
answered with an empty `ParsedNote`); every other exception propagates
(`.error`).  On success the main text is split at the first newline into
title and body, and runs and internal links are extracted. -/
def parse_note_content (g : GzipResult) : Except Unit ParsedNote :=
  match g with
  | .badGzipFile compressed => .ok ⟨[], [], [], [], compressed⟩
  | .otherError => .error ()
  | .ok data => do
    let text_content := extract_main_text data
    let p := split_once_nl text_content
    let runs ← extract_style_runs data text_content
    .ok ⟨p.1, p.2.getD [], runs, links_of_runs runs, data⟩

end NotesExport

/-- The token syntax `\x7b\x7bname\x7d\x7d` of the template engines of both
publishing scripts. -/
def tokenOf (key : Str) : Str :=
  Char.ofNat 123 :: Char.ofNat 123 :: (key ++ [Char.ofNat 125, Char.ofNat 125])

/-- ASCII lowercasing, as Python `str.lower` acts on the ASCII identifiers,
URLs and titles this pipeline feeds it. -/
def pyLower (s : Str) : Str := s.map Char.toLower

/-- A Python `datetime`: the calendar fields the slug needs, plus a serial
(`ord`) carrying the total order used by date comparisons and sorting. -/
structure PyDate where
  year : Nat
  month : Nat
  ord : Nat
deriving DecidableEq

/-- A post record as accumulated by the `main` loops of both publishing
scripts (the fields the index/RSS selection reads). -/
structure Post where
  title : Str
  slug : Str
  creationDate : PyDate
  content : Str
deriving DecidableEq

/-- Python `sorted(posts, key=lambda p: p["creationDate"], reverse=True)`:
a stable sort, descending by creation date. -/
def sorted_by_date_desc (posts : List Post) : List Post :=
  List.insertionSort (fun p q => q.creationDate.ord ≤ p.creationDate.ord) posts

/-- The whitespace-run collapsing of `re.sub(r'\s+', '-', ...)`. -/
def collapse_ws_go : Bool → Str → Str
  | _, [] => []
  | inRun, c :: rest =>
    if isPySpace c then
      if inRun then collapse_ws_go true rest else '-' :: collapse_ws_go true rest
    else c :: collapse_ws_go false rest

/-- `re.sub(r'\s+', '-', s)`: every maximal whitespace run becomes one dash. -/
def collapse_ws (s : Str) : Str := collapse_ws_go false s

/-- `generate_slug` (identical in both publishing scripts): `YYYY/MM/title-slug`
with the title lowercased, stripped of characters outside `[a-z0-9\s]`, and
whitespace runs turned into dashes. -/
def generate_slug (title : Str) (creation_date : PyDate) : Str :=
  let year := str (toString creation_date.year)
  let month := (if creation_date.month < 10 then str "0" else []) ++ str (toString creation_date.month)
  let t1 := pyLower title
  let t2 := t1.filter (fun c => ('a' ≤ c && c ≤ 'z') || ('0' ≤ c && c ≤ '9') || isPySpace c)
  year ++ str "/" ++ month ++ str "/" ++ collapse_ws t2

namespace Publish

open NotesExport

/-- `escape_html`: chained replacement of `&`, `<`, `>` (in that order). -/
def escape_html (text : Str) : Str :=
  pyReplace (pyReplace (pyReplace text (str "&") (str "&amp;")) (str "<") (str "&lt;"))
    (str ">") (str "&gt;")

/-- The inline-formatting signature tuple of `get_run_format_key`. -/
structure FormatKey where
  is_bold : Bool
  is_italic : Bool
  is_superscript : Bool
  is_underline : Bool
  is_strikethrough : Bool
  link_url : Option Str
deriving DecidableEq

/-- `get_run_format_key`: the six inline attributes deciding mergeability. -/
def get_run_format_key (run : StyleRun) : FormatKey :=
  ⟨run.is_bold, run.is_italic, run.is_superscript, run.is_underline,
   run.is_strikethrough, run.link_url⟩

/-- `get_block_type`: the block type of one style run, as the source's string
labels.  Blockquote wins over every paragraph style. -/
def get_block_type (run : StyleRun) : Str :=
  if run.is_blockquote then str "blockquote"
  else if run.paragraph_style == PBValue.vint 1 then str "h1"
  else if run.paragraph_style == PBValue.vint 2 then str "h2"
  else if run.paragraph_style == PBValue.vint 4 then str "code"
  else if run.paragraph_style == PBValue.vint 100 then str "ul"
  else if run.paragraph_style == PBValue.vint 101 then str "ul-dash"
  else if run.paragraph_style == PBValue.vint 102 then str "ol"
  else str "normal"

/-- A block of `convert_note_to_html`: a type label and its runs in order. -/
structure Block where
  type : Str
  runs : List StyleRun
deriving DecidableEq

/-- A value of the `note_lookup` dict of `publish.main`. -/
structure LookupInfo where
  slug : Str
  creationDate : PyDate
  identifier : Str
deriving DecidableEq

/-- The internal-link loop of `format_merged_run_as_html`: the first lookup
entry whose identifier (lowercased) equals the note id gives the target slug. -/
def resolve_internal (note_lookup : List (Str × LookupInfo)) (note_id : Str) : Option Str :=
  note_lookup.findSome? (fun kv =>
    if pyLower kv.2.identifier = note_id then some kv.2.slug else none)

/-- A merged run (the dict built by `merge_runs_for_rendering`): accumulated
text, the shared format key, and the first run as formatting representative. -/
structure MergedRun where
  text : Str
  format_key : FormatKey
  run : StyleRun
deriving DecidableEq

/-- The accumulation loop of `merge_runs_for_rendering`. -/
def merge_runs_go (full_text : Str) : List StyleRun → MergedRun → List MergedRun
  | [], current => [current]
  | run :: rest, current =>
    let run_text := pySlice full_text run.start run.length
    let format_key := get_run_format_key run
    if format_key = current.format_key then
      merge_runs_go full_text rest { current with text := current.text ++ run_text }
    else
      current :: merge_runs_go full_text rest ⟨run_text, format_key, run⟩

/-- `merge_runs_for_rendering`: fuse adjacent runs with an identical format
key into single merged runs. -/
def merge_runs_for_rendering (runs : List StyleRun) (full_text : Str) : List MergedRun :=
  match runs with
  | [] => []
  | run :: rest =>
    merge_runs_go full_text rest
      ⟨pySlice full_text run.start run.length, get_run_format_key run, run⟩

/-- `format_merged_run_as_html`: escape, wrap in the fixed inline-tag order
(superscript, bold, italic, underline, strikethrough), resolve the link, and
re-append the trailing newlines that were set aside for formatted runs. -/
def format_merged_run_as_html (merged_run : MergedRun) (note_lookup : List (Str × LookupInfo))
    (slug : Str) : Str :=
  let run := merged_run.run
  let text := merged_run.text
  let has_inline_formatting := run.is_superscript || run.is_bold || run.is_italic ||
    run.is_underline || run.is_strikethrough || run.link_url.isSome
  let stripped := pyRstripNl text
  let trailing_newlines := if has_inline_formatting then text.drop stripped.length else []
  let text1 := if has_inline_formatting then stripped else text
  let h0 := escape_html text1
  let h1 := if run.is_superscript then str "<sup>" ++ h0 ++ str "</sup>" else h0
  let h2 := if run.is_bold then str "<strong>" ++ h1 ++ str "</strong>" else h1
  let h3 := if run.is_italic then str "<em>" ++ h2 ++ str "</em>" else h2
  let h4 := if run.is_underline then str "<u>" ++ h3 ++ str "</u>" else h3
  let h5 := if run.is_strikethrough then str "<s>" ++ h4 ++ str "</s>" else h4
  let h6 :=
    match run.link_url with
    | some url =>
      if (str "applenotes:note/").isPrefixOf url then
        let note_id := pyLower ((pySplit ((pySplit url (str "?")).headD []) (str "/")).getLastD [])
        match resolve_internal note_lookup note_id with
        | some target_slug => str "<a href=\"/" ++ target_slug ++ str ".html\">" ++ h5 ++ str "</a>"
        | none => h5
      else str "<a href=\"" ++ url ++ str "\">" ++ h5 ++ str "</a>"
    | none => h5
  h6 ++ trailing_newlines

/-- The merged-run content of a block in `render_block`: formatted merged
runs joined and stripped of trailing newlines. -/
def block_content (block : Block) (full_text : Str) (note_lookup : List (Str × LookupInfo))
    (slug : Str) : Str :=
  pyRstripNl ((merge_runs_for_rendering block.runs full_text).map
    (fun m => format_merged_run_as_html m note_lookup slug)).flatten

/-- `render_block`: wrap a block's merged content in the element its type
demands (the `"h3"` branch of the source is kept although no block type ever
carries that label). -/
def render_block (block : Block) (full_text : Str) (note_lookup : List (Str × LookupInfo))
    (slug : Str) : Str :=
  if block.runs.isEmpty then []
  else
    let content := block_content block full_text note_lookup slug
    if block.type = str "h2" then str "<h2>" ++ pyStrip content ++ str "</h2>"
    else if block.type = str "h3" then str "<h3>" ++ pyStrip content ++ str "</h3>"
    else if block.type = str "code" then str "<pre><code>" ++ content ++ str "</code></pre>"
    else if block.type = str "blockquote" then
      let inner := pyReplace (pyReplace content (str "\n\n") (str "</p><p>")) (str "\n") (str "<br>")
      str "<blockquote><p>" ++ inner ++ str "</p></blockquote>"
    else if block.type = str "ul" ∨ block.type = str "ul-dash" then
      let items := ((pySplit content (str "\n")).map pyStrip).filter (fun i => !i.isEmpty)
      let li_items := List.intercalate (str "\n") (items.map (fun i => str "<li>" ++ i ++ str "</li>"))
      str "<ul>\n" ++ li_items ++ str "\n</ul>"
    else if block.type = str "ol" then
      let items := ((pySplit content (str "\n")).map pyStrip).filter (fun i => !i.isEmpty)
      let li_items := List.intercalate (str "\n") (items.map (fun i => str "<li>" ++ i ++ str "</li>"))
      str "<ol>\n" ++ li_items ++ str "\n</ol>"
    else
      let paragraphs := pySplit content (str "\n\n")
      let p_tags := paragraphs.filterMap (fun p =>
        let p1 := pyStrip p
        if p1.isEmpty then none
        else some (str "<p>" ++ pyReplace p1 (str "\n") (str " ") ++ str "</p>"))
      List.intercalate (str "\n") p_tags

/-- The block-segmentation loop of `convert_note_to_html`: skip runs inside
the title span and runs of block type `"h1"`, start a new block on every
type change, and emit the final open block. -/
def note_blocks_go (title_end_pos : Nat) : List StyleRun → Option Block → List Block
  | [], current =>
    match current with
    | some c => if !c.runs.isEmpty then [c] else []
    | none => []
  | run :: rest, current =>
    if run.start + run.length ≤ title_end_pos then note_blocks_go title_end_pos rest current
    else
      let block_type := get_block_type run
      if block_type = str "h1" then note_blocks_go title_end_pos rest current
      else
        match current with
        | none => note_blocks_go title_end_pos rest (some ⟨block_type, [run]⟩)
        | some c =>
          if block_type ≠ c.type then
            if !c.runs.isEmpty then
              c :: note_blocks_go title_end_pos rest (some ⟨block_type, [run]⟩)
            else note_blocks_go title_end_pos rest (some ⟨block_type, [run]⟩)
          else note_blocks_go title_end_pos rest (some { c with runs := c.runs ++ [run] })

/-- The blocks `convert_note_to_html` builds for a parsed note (runs wholly
inside `len(title) + 1` are dropped first). -/
def note_blocks (parsed_note : ParsedNote) : List Block :=
  note_blocks_go (parsed_note.title.length + 1) parsed_note.style_runs none

/-- `convert_note_to_html`: with no style runs, the body split on blank lines
into escaped paragraphs; otherwise the rendered blocks joined by blank lines. -/
def convert_note_to_html (parsed_note : ParsedNote) (note_lookup : List (Str × LookupInfo))
    (slug : Str) : Str :=
  let full_text := parsed_note.title ++ '\n' :: parsed_note.text_content
  if parsed_note.style_runs.isEmpty then
    let paragraphs := pySplit parsed_note.text_content (str "\n\n")
    List.intercalate (str "\n\n") (paragraphs.filterMap (fun p =>
      let p1 := pyStrip p
      if p1.isEmpty then none else some (str "<p>" ++ escape_html p1 ++ str "</p>")))
  else
    let blocks := note_blocks parsed_note
    let html_parts := (blocks.map (fun b => render_block b full_text note_lookup slug)).filter
      (fun h => !h.isEmpty)
    List.intercalate (str "\n\n") html_parts

/-- The content/footer pair returned by `process_footnotes`. -/
structure FootnoteResult where
  content : Str
  footer : Str
deriving DecidableEq

/-- `process_footnotes` of publish.py: a stub that returns the HTML unchanged
with an empty footer. -/
def process_footnotes (html : Str) (slug : Str) : FootnoteResult := ⟨html, []⟩

/-- `render_template`: for each mapping entry in order, replace every
occurrence of its token in the accumulated result. -/
def render_template (template : Str) (vars : List (Str × Str)) : Str :=
  vars.foldl (fun result kv => pyReplace result (tokenOf kv.1) kv.2) template

/-- The `recent_posts` selection of `generate_rss_items` (publish.py line
578): the 30 most recent posts by creation date, descending. -/
def rss_recent_posts (posts : List Post) : List Post :=
  (sorted_by_date_desc posts).take 30

/-- The `posts_sorted` selection of `publish.main` (line 740) feeding the
index page: the 30 most recent posts by creation date, descending. -/
def index_recent_posts (posts : List Post) : List Post :=
  (sorted_by_date_desc posts).take 30

/-- One row of the note set `publish.main` iterates (the fields the lookup
table uses). -/
structure NoteRow where
  title : Str
  identifier : Str
  creation_date : PyDate
deriving DecidableEq

/-- The `note_lookup` building loop of `publish.main` (lines 681-690): a dict
keyed by title, assigned once per note over the full note set. -/
def build_note_lookup_main (all_notes : List NoteRow) : List (Str × LookupInfo) :=
  all_notes.foldl (fun d note =>
    dictSet d note.title
      ⟨generate_slug note.title note.creation_date, note.creation_date, note.identifier⟩) []

end Publish

namespace Simple

/-- Attempt of the MULTILINE definition pattern of
`process_footnotes` in publish-simple.py at a line start: literal `[^`,
one or more digits, `]`, an optional `:`, then at least one whitespace
character (greedy, possibly spanning newlines), then at least one
non-newline character lazily extended to the end of a line.  Returns the
captured number, the captured definition text, and the remainder of the
string after the match.  When everything after the whitespace is exhausted,
the greedy whitespace backtracks so that the lazy group takes the last
non-newline whitespace character, exactly as the Python regex engine does. -/
def try_def_match (s : Str) : Option (Str × Str × Str) :=
  match s with
  | '[' :: '^' :: rest =>
    let num := rest.takeWhile Char.isDigit
    if num.isEmpty then none
    else
      match rest.drop num.length with
      | ']' :: rest2 =>
        let rest3 := match rest2 with
          | ':' :: r => r
          | _ => rest2
        let ws := rest3.takeWhile isPySpace
        if ws.isEmpty then none
        else
          match rest3.drop ws.length with
          | c :: after1 =>
            let text := (c :: after1).takeWhile (· ≠ '\n')
            some (num, text, (c :: after1).drop text.length)
          | [] =>
            let wsCore := (ws.reverse.dropWhile (· == '\n')).reverse
            if wsCore.length ≥ 2 then
              some (num, [wsCore.getLastD ' '], rest3.drop wsCore.length)
            else none
      | _ => none
  | _ => none

/-- The definition-extraction pass of `process_footnotes`
(`re.sub(..., '', html, flags=re.MULTILINE)` with the extracting callback):
scan the string, at every line start try the definition pattern, remove each
match from the content and record the stripped definition text under its
number (later definitions with the same number overwrite earlier ones).
The fuel bounds the scanning steps; the string's length is enough because
every step consumes at least one character. -/
def extract_defs_go : Nat → Str → Bool → List (Str × Str) → Str × List (Str × Str)
  | _, [], _, defs => ([], defs)
  | 0, s, _, defs => (s, defs)
  | fuel + 1, c :: rest, lineStart, defs =>
    if lineStart then
      match try_def_match (c :: rest) with
      | some (num, text, remaining) =>
        extract_defs_go fuel remaining false (dictSet defs num (pyStrip text))
      | none =>
        let p := extract_defs_go fuel rest (c = '\n') defs
        (c :: p.1, p.2)
    else
      let p := extract_defs_go fuel rest (c = '\n') defs
      (c :: p.1, p.2)

/-- The definition pass applied to a whole content string. -/
def extract_definitions (html : Str) : Str × List (Str × Str) :=
  extract_defs_go html.length html true []

/-- The reference-rewriting pass of `process_footnotes`
(`re.sub(r'\[\^(\d+)\]', ...)`): every `[^n]` occurrence becomes a
superscript anchor namespaced by the slug. -/
def replace_refs_go (slug : Str) : Nat → Str → Str
  | _, [] => []
  | 0, s => s
  | fuel + 1, c :: rest =>
    if c = '[' then
      match rest with
      | '^' :: rest1 =>
        let num := rest1.takeWhile Char.isDigit
        if num.isEmpty then c :: replace_refs_go slug fuel rest
        else
          match rest1.drop num.length with
          | ']' :: rest2 =>
            str "<a id=\"" ++ slug ++ str "--footnote-" ++ num ++ str "--anchor\" href=\"#" ++
              slug ++ str "--footnote-" ++ num ++ str "\"><sup>" ++ num ++ str "</sup></a>" ++
              replace_refs_go slug fuel rest2
          | _ => c :: replace_refs_go slug fuel rest
      | _ => c :: replace_refs_go slug fuel rest
    else c :: replace_refs_go slug fuel rest

/-- The numeric value of a digit string (`int(num)` as the sort key). -/
def digits_to_nat (s : Str) : Nat := s.foldl (fun acc c => acc * 10 + (c.toNat - 48)) 0

/-- Stable insertion of a key into a list ascending by numeric value. -/
def insert_by_int (x : Str) : List Str → List Str
  | [] => [x]
  | y :: ys => if digits_to_nat x ≤ digits_to_nat y then x :: y :: ys else y :: insert_by_int x ys

/-- `sorted(definitions.keys(), key=int)`: stable ascending numeric sort. -/
def sort_keys_by_int : List Str → List Str
  | [] => []
  | x :: xs => insert_by_int x (sort_keys_by_int xs)

/-- The footer building of `process_footnotes`: empty when no definitions
were found, otherwise an ordered list with one item per definition in
ascending numeric order, each carrying a back-link anchor. -/
def footnote_footer (slug : Str) (defs : List (Str × Str)) : Str :=
  if defs.isEmpty then []
  else
    let nums := sort_keys_by_int (defs.map (·.1))
    str "<footer>\n<ol>\n" ++
      (nums.map (fun num =>
        str "<li id=\"" ++ slug ++ str "--footnote-" ++ num ++ str "\">" ++
          ((dictGet? defs num).getD []) ++ str "<a href=\"#" ++ slug ++ str "--footnote-" ++
          num ++ str "--anchor\">↩︎</a></li>\n")).flatten ++
      str "</ol>\n</footer>"

/-- The content/footer pair returned by `process_footnotes`. -/
structure FootnoteResult where
  content : Str
  footer : Str
deriving DecidableEq

/-- `process_footnotes` of publish-simple.py: extract definitions, rewrite
references into superscript anchors, and build the footer; the returned
content is stripped. -/
def process_footnotes (html : Str) (slug : Str) : FootnoteResult :=
  let p := extract_definitions html
  let content := replace_refs_go slug p.1.length p.1
  ⟨pyStrip content, footnote_footer slug p.2⟩

/-- `render_template` of publish-simple.py (same single-pass-per-key loop as
publish.py). -/
def render_template (template : Str) (vars : List (Str × Str)) : Str :=
  vars.foldl (fun result kv => pyReplace result (tokenOf kv.1) kv.2) template

/-- One note as fetched from the Notes.app bridge (the fields
`build_note_lookup` reads). -/
structure SimpleNote where
  name : Str
  creationDate : PyDate
deriving DecidableEq

/-- A value of the lookup dict of `build_note_lookup`. -/
structure SimpleLookupInfo where
  slug : Str
  creationDate : PyDate
deriving DecidableEq

/-- `build_note_lookup`: a dict keyed by note title, assigned once per note. -/
def build_note_lookup (notes : List SimpleNote) : List (Str × SimpleLookupInfo) :=
  notes.foldl (fun lookup note =>
    dictSet lookup note.name ⟨generate_slug note.name note.creationDate, note.creationDate⟩) []

/-- The `recent_posts` selection of `generate_rss_items` (publish-simple.py
line 346). -/
def rss_recent_posts (posts : List Post) : List Post :=
  (sorted_by_date_desc posts).take 30

/-- The `posts_sorted` selection of `main` (publish-simple.py line 497)
feeding the index page. -/
def index_recent_posts (posts : List Post) : List Post :=
  (sorted_by_date_desc posts).take 30

end Simple

section ModelDefinitions

open NotesExport Publish

/-- The concatenation of the runs of a block list, in block order. -/
def blocksRuns (blocks : List Block) : List StyleRun := (blocks.map (·.runs)).flatten

/-- The runs held by the segmentation accumulator. -/
def optionRuns : Option Block → List StyleRun
  | some c => c.runs
  | none => []

/-- The predicate deciding which runs survive segmentation in
`convert_note_to_html`: not wholly inside the title span, and not of block
type `"h1"`. -/
def keptBySegmentation (title_end_pos : Nat) (r : StyleRun) : Bool :=
  !decide (r.start + r.length ≤ title_end_pos) && !decide (get_block_type r = str "h1")

/-- Example note for claim C3: title `"T"`, body `"abc"`, one heading-styled
run past the title and one normal run. -/
def c3runH : StyleRun := ⟨2, 2, str "ab", .vint 1, .vint 0, false, false, false, false, none⟩

/-- The normal run of the C3 example. -/
def c3runN : StyleRun := ⟨4, 1, str "c", .vint 0, .vint 0, false, false, false, false, none⟩

/-- The C3 example note. -/
def c3note : ParsedNote := ⟨str "T", str "abc", [c3runH, c3runN], [], []⟩

/-- Example note for claim C2: title `"T"`, body `"Head\nSub"`, a
heading-styled run over `"Head\n"` and a subheading-styled run over `"Sub"`. -/
def c2runH : StyleRun := ⟨2, 5, str "Head\n", .vint 1, .vint 0, false, false, false, false, none⟩

/-- The subheading run of the C2 example. -/
def c2runS : StyleRun := ⟨7, 3, str "Sub", .vint 2, .vint 0, false, false, false, false, none⟩

/-- The C2 example note. -/
def c2note : ParsedNote := ⟨str "T", str "Head\nSub", [c2runH, c2runS], [], []⟩

/-- Thirty-one posts with distinct creation dates, for the C9 witness. -/
def c9posts : List Post :=
  (List.range 31).map (fun i => ⟨str "t", str "s", ⟨2025, 1, i⟩, str "c"⟩)

/-- The most recent post of `c9posts`. -/
def c9newest : Post := ⟨str "t", str "s", ⟨2025, 1, 30⟩, str "c"⟩

/-- The oldest post of `c9posts` (the one the 30-post cut drops). -/
def c9oldest : Post := ⟨str "t", str "s", ⟨2025, 1, 0⟩, str "c"⟩

/-- The declared lengths of the style-run records among a note-content field
list: for each field 5, the length the run record declares; the same
`TypeError` outcomes as `extract_style_runs` (`.error`). -/
def declared_run_lengths_go : List PBField → Except Unit (List Nat)
  | [] => .ok []
  | f :: rest =>
    if f.1 = 5 ∧ f.2.1 = 2 then
      match f.2.2 with
      | .bytes v =>
        match parse_run_record v with
        | .error e => .error e
        | .ok run =>
          match run.length with
          | .bytes _ => .error ()
          | .vint n =>
            match declared_run_lengths_go rest with
            | .error e => .error e
            | .ok tail => .ok (n :: tail)
      | .vint _ => .error ()
    else declared_run_lengths_go rest

/-- The declared style-run lengths of a decoded record. -/
def declared_run_lengths (data : List Nat) : Except Unit (List Nat) :=
  declared_run_lengths_go (get_note_content_fields data)

/-- A concrete gzip-decompressed record: main text `"T\nB"` (title `"T"`,
body `"B"`) and one style run declaring length 3, covering the whole text. -/
def c1data : List Nat := [0x12, 11, 0x1A, 9, 0x12, 3, 84, 10, 66, 0x2A, 2, 0x08, 3]

/-- LEB128 encoding loop for constructing test buffers; the fuel equals the
number being encoded, which bounds the division chain. -/
def encode_varint_go : Nat → Nat → List Nat
  | 0, n => [n % 128]
  | fuel + 1, n => if n < 128 then [n] else (n % 128 + 128) :: encode_varint_go fuel (n / 128)

/-- The varint encoding of a natural number, as `read_varint` reads it back. -/
def encode_varint (n : Nat) : List Nat := encode_varint_go n n

/-- Little-endian fixed-width encoding (`struct.pack("<Q", ...)`-style). -/
def encode_le : Nat → Nat → List Nat
  | 0, _ => []
  | k + 1, v => v % 256 :: encode_le k (v / 256)

/-- A field triple that the wire format can represent: a known wire type with
a value in range (bytes payloads hold genuine bytes below 256). -/
def valid_wire_field (f : PBField) : Bool :=
  (decide (f.2.1 = 0) && (match f.2.2 with | .vint _ => true | .bytes _ => false)) ||
  (decide (f.2.1 = 1) &&
    (match f.2.2 with | .vint n => decide (n < 2 ^ 64) | .bytes _ => false)) ||
  (decide (f.2.1 = 2) &&
    (match f.2.2 with
     | .bytes bs => bs.all (fun b => decide (b < 256))
     | .vint _ => false)) ||
  (decide (f.2.1 = 5) &&
    (match f.2.2 with | .vint n => decide (n < 2 ^ 32) | .bytes _ => false))

/-- The wire encoding of one field: the tag varint
`field_number * 8 + wire_type`, then the payload of its wire type. -/
def encode_field (f : PBField) : List Nat :=
  encode_varint (f.1 * 8 + f.2.1) ++
    (match f.2.1, f.2.2 with
     | 0, .vint n => encode_varint n
     | 1, .vint n => encode_le 8 n
     | 2, .bytes bs => encode_varint bs.length ++ bs
     | 5, .vint n => encode_le 4 n
     | _, _ => [])

/-- The wire encoding of a field sequence. -/
def encode_fields (fs : List PBField) : List Nat := (fs.map encode_field).flatten

/-- Concrete fields for the C5 witness: a varint field, a length-delimited
field and a 32-bit field. -/
def c5fields : List PBField := [(1, 0, .vint 300), (2, 2, .bytes [7, 200]), (3, 5, .vint 70000)]

/-- A truncated varint: continuation bytes with no terminating byte. -/
def c5tail : List Nat := [0x85, 0xC3]

end ModelDefinitions

section Theorems

open NotesExport Publish




theorem merge_runs_go_join (full : Str) (runs : List StyleRun) :
    ∀ cur : MergedRun,
      ((merge_runs_go full runs cur).map (·.text)).flatten =
        cur.text ++ (runs.map (fun r => pySlice full r.start r.length)).flatten := by
  induction runs with
  | nil => intro cur; simp [merge_runs_go]
  | cons r rest ih =>
    intro cur
    simp only [merge_runs_go]
    split
    · rw [ih]; simp [List.append_assoc]
    · simp [ih, List.append_assoc]

theorem note_blocks_go_join (te : Nat) (runs : List StyleRun) :
    ∀ cur : Option Block,
      blocksRuns (note_blocks_go te runs cur) =
        optionRuns cur ++ runs.filter (keptBySegmentation te) := by
  induction runs with
  | nil =>
    intro cur
    match cur with
    | none => simp [note_blocks_go, blocksRuns, optionRuns]
    | some c =>
      simp only [note_blocks_go, List.filter_nil, List.append_nil, optionRuns]
      by_cases h : c.runs.isEmpty
      · simp [h, blocksRuns, List.isEmpty_iff.mp h]
      · simp [h, blocksRuns]
  | cons r rest ih =>
    intro cur
    by_cases h1 : r.start + r.length ≤ te
    · have hk : keptBySegmentation te r = false := by simp [keptBySegmentation, h1]
      simp [note_blocks_go, h1, List.filter_cons, hk, ih cur]
    · by_cases h2 : get_block_type r = str "h1"
      · have hk : keptBySegmentation te r = false := by simp [keptBySegmentation, h2]
        simp [note_blocks_go, h1, h2, List.filter_cons, hk, ih cur]
      · have hk : keptBySegmentation te r = true := by simp [keptBySegmentation, h1, h2]
        match cur with
        | none =>
          have h5 := ih (some ⟨get_block_type r, [r]⟩)
          simp only [optionRuns] at h5
          simp [note_blocks_go, h1, h2, List.filter_cons, hk, h5, optionRuns]
        | some c =>
          by_cases h3 : get_block_type r = c.type
          · have h2c : ¬ c.type = str "h1" := by rw [← h3]; exact h2
            have h5 := ih (some { c with runs := c.runs ++ [r] })
            simp only [optionRuns] at h5
            simp [note_blocks_go, h1, h2, h2c, h3, List.filter_cons, hk, h5, optionRuns,
              List.append_assoc]
          · have h5 := ih (some ⟨get_block_type r, [r]⟩)
            simp only [optionRuns] at h5
            by_cases h4 : c.runs.isEmpty
            · simp [note_blocks_go, h1, h2, h3, h4, List.filter_cons, hk, h5, optionRuns,
                List.isEmpty_iff.mp h4]
            · have h5f : (List.map (fun b => b.runs)
                  (note_blocks_go te rest (some ⟨get_block_type r, [r]⟩))).flatten =
                  [r] ++ List.filter (keptBySegmentation te) rest := by
                simpa [blocksRuns] using h5
              simp [note_blocks_go, h1, h2, h3, h4, List.filter_cons, hk, optionRuns,
                blocksRuns, h5f]

/-- Claim C7: for every block's run sequence and full text, concatenating the
text of all merged runs produced by `merge_runs_for_rendering`, in order,
equals the concatenation of the input runs' text slices in their original
order. -/
theorem C7_merge_preserves_text (runs : List StyleRun) (full_text : Str) :
    ((merge_runs_for_rendering runs full_text).map (·.text)).flatten =
      (runs.map (fun r => pySlice full_text r.start r.length)).flatten := by
  match runs with
  | [] => rfl
  | r :: rest =>
    simp only [merge_runs_for_rendering, merge_runs_go_join, List.map_cons, List.flatten_cons]

end Theorems

section ClaimC3

open NotesExport Publish




/-- Claim C3 as stated is false: segmentation also drops every run of block
type `"h1"` (heading style), so for this note the blocks' concatenated runs
lack the heading run even though it lies past the title span. -/
theorem C3_counterexample :
    blocksRuns (note_blocks c3note) = [c3runN] ∧
    c3note.style_runs.filter
      (fun r => !decide (r.start + r.length ≤ c3note.title.length + 1)) = [c3runH, c3runN] ∧
    ([c3runN] : List StyleRun) ≠ [c3runH, c3runN] := by decide

/-- Claim C3 amended: concatenating the runs of all blocks produced by
`convert_note_to_html`, in block order, yields exactly the original run
sequence after dropping the runs with `start + length <= len(title) + 1`
and additionally the runs whose computed block type is `"h1"` (heading),
in their original order. -/
theorem C3_blocks_concat_eq_filtered (parsed : ParsedNote) :
    blocksRuns (note_blocks parsed) =
      parsed.style_runs.filter (keptBySegmentation (parsed.title.length + 1)) := by
  simpa [optionRuns] using
    note_blocks_go_join (parsed.title.length + 1) parsed.style_runs none

end ClaimC3

section ClaimC2

open NotesExport Publish




/-- Claim C2 as stated is false: for this note the heading run's content is
absent from the rendered output (heading blocks are skipped, not wrapped in
`<h2>`), and the subheading run is wrapped in `<h2>`, not `<h3>`. -/
theorem C2_counterexample :
    convert_note_to_html c2note [] (str "s") = str "<h2>Sub</h2>" ∧
    occursIn (str "Head") (convert_note_to_html c2note [] (str "s")) = false ∧
    occursIn (str "<h3>") (convert_note_to_html c2note [] (str "s")) = false := by decide

/-- Claim C2 amended: runs whose paragraph style is heading (and that are not
blockquotes) are dropped entirely during segmentation and appear in no
rendered block; runs whose paragraph style is subheading get block type
`"h2"`; and a non-empty block of type `"h2"` renders as `<h2>` around the
trimmed merged content.  No `<h3>` element is ever produced because no block
type carries the label `"h3"`. -/
theorem C2_heading_skipped_subheading_h2 :
    (∀ (parsed : ParsedNote) (b : Block), b ∈ note_blocks parsed → ∀ r ∈ b.runs,
      ¬ (r.is_blockquote = false ∧ r.paragraph_style = PBValue.vint 1)) ∧
    (∀ r : StyleRun, r.is_blockquote = false → r.paragraph_style = PBValue.vint 2 →
      get_block_type r = str "h2") ∧
    (∀ (b : Block) (full_text : Str) (note_lookup : List (Str × LookupInfo)) (slug : Str),
      b.type = str "h2" → b.runs.isEmpty = false →
      render_block b full_text note_lookup slug =
        str "<h2>" ++ pyStrip (block_content b full_text note_lookup slug) ++ str "</h2>") := by
  refine ⟨?_, ?_, ?_⟩
  · intro parsed b hb r hr h
    have hmem : r ∈ blocksRuns (note_blocks parsed) := by
      simp only [blocksRuns, List.mem_flatten]
      exact ⟨b.runs, List.mem_map_of_mem _ hb, hr⟩
    simp only [note_blocks] at hmem
    rw [note_blocks_go_join] at hmem
    simp only [optionRuns, List.nil_append, List.mem_filter] at hmem
    have hkept := hmem.2
    have hh1 : get_block_type r = str "h1" := by
      simp [get_block_type, h.1, h.2]
    simp [keptBySegmentation, hh1] at hkept
  · intro r hbq hps
    simp [get_block_type, hbq, hps]
  · intro b full_text note_lookup slug ht hr
    simp [render_block, hr, ht]

/-- Witness for the amended claim C2 at the concrete example note. -/
theorem C2_witness :
    (¬ (c2runS.is_blockquote = false ∧ c2runS.paragraph_style = PBValue.vint 1)) ∧
    get_block_type c2runS = str "h2" ∧
    render_block ⟨str "h2", [c2runS]⟩ (str "T\nHead\nSub") [] (str "s") =
      str "<h2>" ++
        pyStrip (block_content ⟨str "h2", [c2runS]⟩ (str "T\nHead\nSub") [] (str "s")) ++
        str "</h2>" := by
  refine ⟨?_, ?_, ?_⟩
  · exact C2_heading_skipped_subheading_h2.1 c2note ⟨str "h2", [c2runS]⟩ (by decide)
      c2runS (by decide)
  · exact C2_heading_skipped_subheading_h2.2.1 c2runS (by decide) (by decide)
  · exact C2_heading_skipped_subheading_h2.2.2 ⟨str "h2", [c2runS]⟩ (str "T\nHead\nSub") []
      (str "s") (by decide) (by decide)

end ClaimC2

section ClaimC4

/-- Claim C4 as stated is false for the publish.py pipeline: on a content
with a `[^1]` reference and a `[^1]: Note text` definition, its
`process_footnotes` returns the content unchanged — no superscript anchor,
no footer item — and an empty footer. -/
theorem C4_counterexample :
    (Publish.process_footnotes (str "See[^1]\n[^1]: Note text") (str "s")).footer = [] ∧
    (Publish.process_footnotes (str "See[^1]\n[^1]: Note text") (str "s")).content =
      str "See[^1]\n[^1]: Note text" ∧
    occursIn (str "<sup>")
      (Publish.process_footnotes (str "See[^1]\n[^1]: Note text") (str "s")).content = false := by
  refine ⟨rfl, rfl, by decide⟩

set_option maxRecDepth 40000 in
/-- Claim C4 amended: only the publish-simple.py pipeline processes
footnotes.  There, a reference paired with definitions yields superscript
anchors in the flowing content and exactly one footer list item per
definition with a back-link, ordered ascending by numeric id even when the
definitions appear out of order, and an empty footer when no definitions are
found; publish.py's `process_footnotes` returns the content unchanged with
an always-empty footer. -/
theorem C4_footnotes_simple_pipeline_only :
    (∀ html slug : Str, Publish.process_footnotes html slug = ⟨html, []⟩) ∧
    (Simple.process_footnotes (str "A[^1] B\n[^2]: two\n[^1]: one") (str "s") =
      ⟨str "A<a id=\"s--footnote-1--anchor\" href=\"#s--footnote-1\"><sup>1</sup></a> B",
       str "<footer>\n<ol>\n<li id=\"s--footnote-1\">one<a href=\"#s--footnote-1--anchor\">↩︎</a></li>\n<li id=\"s--footnote-2\">two<a href=\"#s--footnote-2--anchor\">↩︎</a></li>\n</ol>\n</footer>"⟩) ∧
    (∀ html slug : Str, (Simple.extract_definitions html).2 = [] →
      (Simple.process_footnotes html slug).footer = []) := by
  refine ⟨fun html slug => rfl, by decide, ?_⟩
  intro html slug h
  simp [Simple.process_footnotes, Simple.footnote_footer, h]

/-- Witness for the amended claim C4: a content without footnote definitions
gets an empty footer. -/
theorem C4_witness :
    (Simple.extract_definitions (str "plain text")).2 = [] ∧
    (Simple.process_footnotes (str "plain text") (str "s")).footer = [] :=
  ⟨rfl, C4_footnotes_simple_pipeline_only.2.2 (str "plain text") (str "s") rfl⟩

end ClaimC4

section ClaimC10

theorem find?_map_replace {V : Type} (k t : Str) (v : V) (hne : t ≠ k) (d : List (Str × V)) :
    (d.map (fun kv => if kv.1 = k then (k, v) else kv)).find? (fun kv => decide (kv.1 = t)) =
      d.find? (fun kv => decide (kv.1 = t)) := by
  induction d with
  | nil => rfl
  | cons kv rest ih =>
    by_cases h : kv.1 = k
    · have h1 : ¬ (k = t) := fun he => hne he.symm
      simp [List.find?_cons, h, h1, ih]
    · by_cases h2 : kv.1 = t
      · simp [List.find?_cons, h, h2, hne]
      · simp [List.find?_cons, h, h2, ih]

theorem find?_map_replace_hit {V : Type} (k : Str) (v : V) :
    ∀ d : List (Str × V), d.any (fun kv => decide (kv.1 = k)) = true →
      (d.map (fun kv => if kv.1 = k then (k, v) else kv)).find? (fun kv => decide (kv.1 = k)) =
        some (k, v) := by
  intro d
  induction d with
  | nil => intro h; simp at h
  | cons kv rest ih =>
    intro h
    by_cases hk : kv.1 = k
    · have hhead : (if kv.1 = k then (k, v) else kv) = (k, v) := by simp [hk]
      rw [List.map_cons, hhead]
      exact List.find?_cons_of_pos _ (by simp)
    · have hrest : rest.any (fun kv => decide (kv.1 = k)) = true := by
        rw [List.any_cons] at h
        rcases (Bool.or_eq_true _ _).mp h with h1 | h2
        · exact absurd (of_decide_eq_true h1) hk
        · exact h2
      have hhead : (if kv.1 = k then (k, v) else kv) = kv := by simp [hk]
      rw [List.map_cons, hhead, List.find?_cons_of_neg _ (by simp [hk])]
      exact ih hrest

theorem dictGet?_dictSet {V : Type} (d : List (Str × V)) (k t : Str) (v : V) :
    dictGet? (dictSet d k v) t = if t = k then some v else dictGet? d t := by
  by_cases hp : d.any (fun kv => decide (kv.1 = k)) = true
  · by_cases ht : t = k
    · subst ht
      simp [dictGet?, dictSet, hp, find?_map_replace_hit t v d hp]
    · simp [dictGet?, dictSet, hp, ht, find?_map_replace k t v ht d]
  · have hnone : d.find? (fun kv => decide (kv.1 = k)) = none := by
      rw [List.find?_eq_none]
      intro x hx hcontra
      exact hp (List.any_eq_true.mpr ⟨x, hx, hcontra⟩)
    by_cases ht : t = k
    · subst ht
      simp [dictGet?, dictSet, hp, List.find?_append, hnone]
    · have : ¬ (k = t) := fun he => ht he.symm
      simp [dictGet?, dictSet, hp, List.find?_append, ht, this]

theorem optionMap_or {α β : Type} (f : α → β) (a b : Option α) :
    (a.or b).map f = (a.map f).or (b.map f) := by
  cases a <;> rfl

theorem foldl_dictSet_lookup {A V : Type} (key : A → Str) (val : A → V) :
    ∀ (xs : List A) (d : List (Str × V)) (t : Str),
      dictGet? (xs.foldl (fun acc x => dictSet acc (key x) (val x)) d) t =
        ((xs.reverse.find? (fun x => decide (key x = t))).map val).or (dictGet? d t) := by
  intro xs
  induction xs with
  | nil => intro d t; simp
  | cons x rest ih =>
    intro d t
    rw [List.foldl_cons, ih, List.reverse_cons, List.find?_append, optionMap_or,
      Option.or_assoc]
    congr 1
    rw [dictGet?_dictSet]
    by_cases hx : key x = t
    · have ht : t = key x := hx.symm
      rw [List.find?_cons_of_pos _ (by simp [hx])]
      simp [ht, Option.or]
    · have ht : ¬ (t = key x) := fun he => hx he.symm
      rw [List.find?_cons_of_neg _ (by simp [hx]), List.find?_nil]
      simp [ht, Option.or]

theorem keys_dictSet_nodup {V : Type} (d : List (Str × V)) (k : Str) (v : V)
    (h : (d.map (·.1)).Nodup) : ((dictSet d k v).map (·.1)).Nodup := by
  by_cases hp : d.any (fun kv => decide (kv.1 = k)) = true
  · have : (dictSet d k v).map (·.1) = d.map (·.1) := by
      simp only [dictSet, hp, if_pos, List.map_map]
      apply List.map_congr_left
      intro kv _
      by_cases hk : kv.1 = k
      · simp [hk]
      · simp [hk]
    rw [this]; exact h
  · have hk : k ∉ d.map (·.1) := by
      intro hmem
      rcases List.mem_map.mp hmem with ⟨kv, hkv, hfst⟩
      exact hp (List.any_eq_true.mpr ⟨kv, hkv, by simp [hfst]⟩)
    have hkeys : (dictSet d k v).map (·.1) = d.map (·.1) ++ [k] := by
      simp [dictSet, hp]
    rw [hkeys]
    refine List.Nodup.append h (List.nodup_singleton k) ?_
    intro a ha hb
    have hak : a = k := by simpa using hb
    exact hk (hak ▸ ha)

theorem foldl_dictSet_nodup_keys {A V : Type} (key : A → Str) (val : A → V) :
    ∀ (xs : List A) (d : List (Str × V)), (d.map (·.1)).Nodup →
      (((xs.foldl (fun acc x => dictSet acc (key x) (val x)) d)).map (·.1)).Nodup := by
  intro xs
  induction xs with
  | nil => intro d h; simpa using h
  | cons x rest ih =>
    intro d h
    rw [List.foldl_cons]
    exact ih _ (keys_dictSet_nodup d (key x) (val x) h)

/-- Claim C10: the note lookup tables of both pipelines are dicts keyed by
note title; looking a title up yields exactly the entry of the last-processed
note with that title (so earlier same-titled notes' slugs and identifiers are
not retained), and the tables never hold two entries for one title, so every
wiki-title or internal-identifier scan sees only the single surviving entry. -/
theorem C10_note_lookup_keyed_by_title_last_wins :
    (∀ (notes : List Publish.NoteRow) (t : Str),
      dictGet? (Publish.build_note_lookup_main notes) t =
        (notes.reverse.find? (fun n => decide (n.title = t))).map
          (fun n => (⟨generate_slug n.title n.creation_date, n.creation_date,
            n.identifier⟩ : Publish.LookupInfo))) ∧
    (∀ (notes : List Simple.SimpleNote) (t : Str),
      dictGet? (Simple.build_note_lookup notes) t =
        (notes.reverse.find? (fun n => decide (n.name = t))).map
          (fun n => (⟨generate_slug n.name n.creationDate,
            n.creationDate⟩ : Simple.SimpleLookupInfo))) ∧
    (∀ notes : List Publish.NoteRow,
      ((Publish.build_note_lookup_main notes).map (·.1)).Nodup) ∧
    (∀ notes : List Simple.SimpleNote,
      ((Simple.build_note_lookup notes).map (·.1)).Nodup) := by
  refine ⟨?_, ?_, ?_, ?_⟩
  · intro notes t
    have := foldl_dictSet_lookup (fun n : Publish.NoteRow => n.title)
      (fun n : Publish.NoteRow => (⟨generate_slug n.title n.creation_date, n.creation_date,
        n.identifier⟩ : Publish.LookupInfo)) notes [] t
    simpa [Publish.build_note_lookup_main, dictGet?] using this
  · intro notes t
    have := foldl_dictSet_lookup (fun n : Simple.SimpleNote => n.name)
      (fun n : Simple.SimpleNote => (⟨generate_slug n.name n.creationDate,
        n.creationDate⟩ : Simple.SimpleLookupInfo)) notes [] t
    simpa [Simple.build_note_lookup, dictGet?] using this
  · intro notes
    have := foldl_dictSet_nodup_keys (fun n : Publish.NoteRow => n.title)
      (fun n : Publish.NoteRow => (⟨generate_slug n.title n.creation_date, n.creation_date,
        n.identifier⟩ : Publish.LookupInfo)) notes [] (by simp)
    simpa [Publish.build_note_lookup_main] using this
  · intro notes
    have := foldl_dictSet_nodup_keys (fun n : Simple.SimpleNote => n.name)
      (fun n : Simple.SimpleNote => (⟨generate_slug n.name n.creationDate,
        n.creationDate⟩ : Simple.SimpleLookupInfo)) notes [] (by simp)
    simpa [Simple.build_note_lookup] using this

end ClaimC10

section ClaimC9

/-- Claim C9: in both pipelines, the index page and the RSS feed select the
same list: at most 30 posts, sorted descending by creation date, forming
(together with the dropped remainder) a permutation of all posts, and every
selected post is at least as recent as every dropped post. -/
theorem C9_index_and_rss_top30_descending :
    ∀ posts : List Post,
      Publish.index_recent_posts posts = Publish.rss_recent_posts posts ∧
      Simple.index_recent_posts posts = Publish.rss_recent_posts posts ∧
      Simple.rss_recent_posts posts = Publish.rss_recent_posts posts ∧
      (Publish.rss_recent_posts posts).length ≤ 30 ∧
      List.Pairwise (fun p q => q.creationDate.ord ≤ p.creationDate.ord)
        (Publish.rss_recent_posts posts) ∧
      (Publish.rss_recent_posts posts ++ (sorted_by_date_desc posts).drop 30).Perm posts ∧
      (∀ p ∈ Publish.rss_recent_posts posts, ∀ q ∈ (sorted_by_date_desc posts).drop 30,
        q.creationDate.ord ≤ p.creationDate.ord) := by
  intro posts
  haveI : IsTotal Post (fun p q => q.creationDate.ord ≤ p.creationDate.ord) :=
    ⟨fun a b => Nat.le_total b.creationDate.ord a.creationDate.ord⟩
  haveI : IsTrans Post (fun p q => q.creationDate.ord ≤ p.creationDate.ord) :=
    ⟨fun _ _ _ hab hbc => Nat.le_trans hbc hab⟩
  have hsorted : List.Pairwise (fun p q => q.creationDate.ord ≤ p.creationDate.ord)
      (sorted_by_date_desc posts) := by
    have h := List.sorted_insertionSort
      (fun p q : Post => q.creationDate.ord ≤ p.creationDate.ord) posts
    simpa [sorted_by_date_desc, List.Sorted] using h
  have hsplit : List.Pairwise (fun p q => q.creationDate.ord ≤ p.creationDate.ord)
      ((sorted_by_date_desc posts).take 30 ++ (sorted_by_date_desc posts).drop 30) := by
    rw [List.take_append_drop]; exact hsorted
  refine ⟨rfl, rfl, rfl, List.length_take_le _ _, ?_, ?_, ?_⟩
  · exact List.Pairwise.sublist (List.take_sublist _ _) hsorted
  · have : (sorted_by_date_desc posts).take 30 ++ (sorted_by_date_desc posts).drop 30 =
        sorted_by_date_desc posts := List.take_append_drop 30 _
    rw [Publish.rss_recent_posts, this]
    exact List.perm_insertionSort _ posts
  · intro p hp q hq
    exact (List.pairwise_append.mp hsplit).2.2 p hp q hq




/-- Witness for claim C9 at a concrete batch of 31 posts. -/
theorem C9_witness :
    c9newest ∈ Publish.rss_recent_posts c9posts ∧
    c9oldest ∈ (sorted_by_date_desc c9posts).drop 30 ∧
    c9oldest.creationDate.ord ≤ c9newest.creationDate.ord :=
  ⟨by decide, by decide,
    (C9_index_and_rss_top30_descending c9posts).2.2.2.2.2.2 c9newest (by decide)
      c9oldest (by decide)⟩

end ClaimC9

section ClaimC8

theorem pyReplaceGo_fuel_eq (pat rep : Str) (hpat : pat ≠ []) :
    ∀ (f1 : Nat) (s : Str) (f2 : Nat), s.length ≤ f1 → s.length ≤ f2 →
      pyReplaceGo pat rep f1 s = pyReplaceGo pat rep f2 s := by
  intro f1
  induction f1 with
  | zero =>
    intro s f2 h1 _
    have hs : s = [] := List.eq_nil_of_length_eq_zero (Nat.le_zero.mp h1)
    subst hs
    simp [pyReplaceGo]
  | succ f1 ih =>
    intro s f2 h1 h2
    match s with
    | [] => simp [pyReplaceGo]
    | c :: rest =>
      match f2 with
      | 0 => exact absurd h2 (by simp)
      | f2 + 1 =>
        have hplen : 1 ≤ pat.length := List.length_pos.mpr hpat
        simp only [pyReplaceGo]
        by_cases hp : pat.isPrefixOf (c :: rest) = true
        · rw [if_pos hp, if_pos hp]
          have hd1 : ((c :: rest).drop pat.length).length ≤ f1 := by
            simp only [List.length_drop, List.length_cons]
            simp only [List.length_cons] at h1
            omega
          have hd2 : ((c :: rest).drop pat.length).length ≤ f2 := by
            simp only [List.length_drop, List.length_cons]
            simp only [List.length_cons] at h2
            omega
          rw [ih _ f2 hd1 hd2]
        · rw [if_neg hp, if_neg hp]
          have hr1 : rest.length ≤ f1 := by
            simp only [List.length_cons] at h1; omega
          have hr2 : rest.length ≤ f2 := by
            simp only [List.length_cons] at h2; omega
          rw [ih rest f2 hr1 hr2]

theorem pyReplaceGo_append_skip (pat rep : Str) :
    ∀ (a s : Str) (fuel : Nat),
      (∀ i, i < a.length → pat.isPrefixOf ((a ++ s).drop i) = false) →
      pyReplaceGo pat rep (a.length + fuel) (a ++ s) = a ++ pyReplaceGo pat rep fuel s := by
  intro a
  induction a with
  | nil => intro s fuel _; simp
  | cons c a ih =>
    intro s fuel h
    have h0 : pat.isPrefixOf (c :: (a ++ s)) = false := by
      have := h 0 (by simp)
      simpa using this
    have hlen : (c :: a).length + fuel = (a.length + fuel) + 1 := by
      simp only [List.length_cons]; omega
    have hrec : ∀ i, i < a.length → pat.isPrefixOf ((a ++ s).drop i) = false := by
      intro i hi
      have := h (i + 1) (by simp only [List.length_cons]; omega)
      simpa [List.drop_succ_cons] using this
    rw [List.cons_append, hlen]
    simp only [pyReplaceGo]
    rw [if_neg (by simp [h0]), ih s fuel hrec]
    simp

theorem pyReplace_append_token (pat rep a b : Str) (hpat : pat ≠ [])
    (h : ∀ i, i < a.length → pat.isPrefixOf ((a ++ pat ++ b).drop i) = false) :
    pyReplace (a ++ pat ++ b) pat rep = a ++ rep ++ pyReplace b pat rep := by
  have hpe : pat.isEmpty = false := by
    cases pat with
    | nil => exact absurd rfl hpat
    | cons p pt => rfl
  have hassoc : a ++ pat ++ b = a ++ (pat ++ b) := List.append_assoc a pat b
  have hskip : pyReplaceGo pat rep (a.length + (pat.length + b.length)) (a ++ (pat ++ b)) =
      a ++ pyReplaceGo pat rep (pat.length + b.length) (pat ++ b) := by
    apply pyReplaceGo_append_skip
    intro i hi
    have := h i hi
    rwa [hassoc] at this
  have hlen : (a ++ (pat ++ b)).length = a.length + (pat.length + b.length) := by
    simp [List.length_append]
  have hstep : pyReplaceGo pat rep (pat.length + b.length) (pat ++ b) =
      rep ++ pyReplaceGo pat rep b.length b := by
    cases pat with
    | nil => exact absurd rfl hpat
    | cons p pt =>
      have hfl : (p :: pt).length + b.length = (pt.length + b.length) + 1 := by
        simp only [List.length_cons]; omega
      have hpref : (p :: pt).isPrefixOf (p :: (pt ++ b)) = true := by
        rw [List.isPrefixOf_iff_prefix]
        have := List.prefix_append (p :: pt) b
        simpa [List.cons_append] using this
      have hdrop2 : List.drop (p :: pt).length (p :: (pt ++ b)) = b := by
        have := List.drop_left (p :: pt) b
        simpa [List.cons_append] using this
      have hfuel : pyReplaceGo (p :: pt) rep (pt.length + b.length) b =
          pyReplaceGo (p :: pt) rep b.length b := by
        apply pyReplaceGo_fuel_eq (p :: pt) rep (by simp)
        · omega
        · omega
      rw [hfl, List.cons_append]
      simp only [pyReplaceGo]
      rw [if_pos hpref, hdrop2, hfuel]
  simp only [pyReplace, hpe, Bool.false_eq_true, if_false]
  rw [hassoc, hlen, hskip, hstep, List.append_assoc]

/-- Claim C8 as stated is false: with the mapping `a ↦ \x7b\x7bb\x7d\x7d,
b ↦ Z` (in that order), the token-shaped text introduced by substituting `a`
is itself substituted by the later pass for `b`, so the template
`\x7b\x7ba\x7d\x7d` renders as `Z`, not as the introduced token. -/
theorem C8_counterexample :
    Publish.render_template (tokenOf (str "a"))
      [(str "a", tokenOf (str "b")), (str "b", str "Z")] = str "Z" ∧
    str "Z" ≠ tokenOf (str "b") := by
  refine ⟨by decide, by decide⟩

/-- Claim C8 amended: `render_template` is a sequence of per-key global
replacements in mapping order.  Each pass is itself single-pass and
non-recursive: a `\x7b\x7bname\x7d\x7d` token of the original template (not
preceded by an earlier occurrence overlap) is replaced by the key's value,
and the rest of that pass continues after the substituted value; but the
substituted value then belongs to the text the *remaining* keys' passes scan,
so token-shaped text introduced by a value is substituted whenever it names a
key that comes later in the mapping order (and only then).  This holds for
the identical template engines of both publishing scripts. -/
theorem C8_sequential_per_key_substitution (a b key v : Str) (rest : List (Str × Str))
    (h : ∀ i, i < a.length →
      (tokenOf key).isPrefixOf ((a ++ tokenOf key ++ b).drop i) = false) :
    Publish.render_template (a ++ tokenOf key ++ b) ((key, v) :: rest) =
      Publish.render_template (a ++ v ++ pyReplace b (tokenOf key) v) rest ∧
    Simple.render_template (a ++ tokenOf key ++ b) ((key, v) :: rest) =
      Simple.render_template (a ++ v ++ pyReplace b (tokenOf key) v) rest := by
  have htok : tokenOf key ≠ [] := by simp [tokenOf]
  have hrepl := pyReplace_append_token (tokenOf key) v a b htok h
  constructor
  · simp only [Publish.render_template, List.foldl_cons]
    rw [hrepl]
  · simp only [Simple.render_template, List.foldl_cons]
    rw [hrepl]

/-- Witness for the amended claim C8 at a concrete template and mapping. -/
theorem C8_witness :
    (∀ i, i < (str "x").length →
      (tokenOf (str "a")).isPrefixOf ((str "x" ++ tokenOf (str "a") ++ str "y").drop i) =
        false) ∧
    Publish.render_template (str "x" ++ tokenOf (str "a") ++ str "y") [(str "a", str "V")] =
      Publish.render_template
        (str "x" ++ str "V" ++ pyReplace (str "y") (tokenOf (str "a")) (str "V")) [] :=
  ⟨by decide,
    (C8_sequential_per_key_substitution (str "x") (str "y") (str "a") (str "V") []
      (by decide)).1⟩

end ClaimC8

section ClaimC6

open NotesExport

/-- Claim C6 evaluated on the code: `parse_note_content` recovers only the
`gzip.BadGzipFile` outcome of `gzip.decompress` (wrong magic bytes), turning
it into an empty `ParsedNote`; any other decompression failure — such as the
`EOFError` CPython raises for `b"\x1f\x8b"`, a valid magic followed by
truncation — is not caught and propagates, aborting the batch. -/
theorem C6_only_bad_gzip_is_caught :
    ∀ raw : List Nat,
      parse_note_content (GzipResult.badGzipFile raw) = Except.ok ⟨[], [], [], [], raw⟩ ∧
      parse_note_content GzipResult.otherError = Except.error () :=
  fun _ => ⟨rfl, rfl⟩

end ClaimC6

section ClaimC1

open NotesExport



theorem exceptBind_ok {ε α β : Type} (a : α) (f : α → Except ε β) :
    (do let x ← Except.ok a; f x) = f a := rfl

theorem exceptBind_error {ε α β : Type} (e : ε) (f : α → Except ε β) :
    (do let x ← Except.error e; f x) = (Except.error e : Except ε β) := rfl

theorem extract_runs_go_wf (text : Str) :
    ∀ (fields : List PBField) (L : List Nat) (pos : Nat),
      declared_run_lengths_go fields = .ok L →
      (∀ l ∈ L, 0 < l) →
      pos + L.sum = text.length →
      ∃ runs, extract_runs_go text fields pos = .ok runs ∧ runs.map (·.length) = L := by
  intro fields
  induction fields with
  | nil =>
    intro L pos hL _ _
    simp only [declared_run_lengths_go, Except.ok.injEq] at hL
    subst hL
    exact ⟨[], rfl, rfl⟩
  | cons f rest ih =>
    intro L pos hL hpos hsum
    by_cases hf : f.1 = 5 ∧ f.2.1 = 2
    · cases hv : f.2.2 with
      | vint n =>
        rw [declared_run_lengths_go, if_pos hf] at hL
        simp only [hv] at hL
        exact Except.noConfusion hL
      | bytes v =>
        rw [declared_run_lengths_go, if_pos hf] at hL
        simp only [hv] at hL
        cases hpr : parse_run_record v with
        | error e =>
          simp only [hpr] at hL
          exact Except.noConfusion hL
        | ok run =>
          simp only [hpr] at hL
          cases hrl : run.length with
          | bytes bs =>
            simp only [hrl] at hL
            exact Except.noConfusion hL
          | vint n =>
            simp only [hrl] at hL
            cases htl : declared_run_lengths_go rest with
            | error e =>
              simp only [htl] at hL
              exact Except.noConfusion hL
            | ok tail =>
              simp only [htl, Except.ok.injEq] at hL
              subst hL
              have hn : 0 < n := hpos n (by simp)
              have hpostail : pos + n + tail.sum = text.length := by
                simp only [List.sum_cons] at hsum
                omega
              have hposlt : pos < text.length := by
                omega
              obtain ⟨truns, htr, htm⟩ := ih tail (pos + n) htl
                (fun l hl => hpos l (by simp [hl])) hpostail
              refine ⟨⟨pos, n, pySlice text pos n, run.para_style, run.text_style,
                run.is_blockquote, run.is_superscript, run.is_underline,
                run.is_strikethrough, run.link_url⟩ :: truns, ?_, ?_⟩
              · rw [extract_runs_go, if_pos hf]
                simp only [hv, hpr, exceptBind_ok, hrl]
                rw [if_pos (show 0 < n ∧ pos < text.length from ⟨hn, hposlt⟩)]
                simp only [htr, exceptBind_ok]
              · simp [htm]
    · rw [declared_run_lengths_go, if_neg hf] at hL
      obtain ⟨runs, hr, hm⟩ := ih L pos hL hpos hsum
      refine ⟨runs, ?_, hm⟩
      rw [extract_runs_go, if_neg hf]
      exact hr

theorem split_once_nl_length :
    ∀ s : Str, '\n' ∈ s →
      s.length = (split_once_nl s).1.length + 1 + ((split_once_nl s).2.getD []).length := by
  intro s
  induction s with
  | nil => intro h; simp at h
  | cons c rest ih =>
    intro h
    by_cases hc : c = '\n'
    · simp [split_once_nl, hc]
      omega
    · have hr : '\n' ∈ rest := by
        rcases List.mem_cons.mp h with h1 | h2
        · exact absurd h1.symm hc
        · exact h2
      have := ih hr
      simp only [split_once_nl, if_neg hc, List.length_cons]
      omega

/-- Claim C1 amended: for a well-formed record — one whose style-run fields
declare positive lengths summing exactly to the length of the decoded main
text — the sum of the lengths of the extracted StyleRuns equals the length of
the whole main text, which is `len(title) + 1 + len(body_text)` whenever the
text contains a newline; it exceeds `len(body_text)` by the title span. -/
theorem C1_run_length_sum (data : List Nat) (L : List Nat)
    (h1 : declared_run_lengths data = Except.ok L)
    (h2 : ∀ l ∈ L, 0 < l)
    (h3 : L.sum = (extract_main_text data).length) :
    ∃ runs, extract_style_runs data (extract_main_text data) = Except.ok runs ∧
      (runs.map (·.length)).sum = (extract_main_text data).length ∧
      ('\n' ∈ extract_main_text data →
        (runs.map (·.length)).sum =
          (split_once_nl (extract_main_text data)).1.length + 1 +
            ((split_once_nl (extract_main_text data)).2.getD []).length) := by
  obtain ⟨runs, hr, hmap⟩ := extract_runs_go_wf (extract_main_text data)
    (get_note_content_fields data) L 0 h1 h2 (by simpa using h3)
  refine ⟨runs, hr, ?_, ?_⟩
  · rw [hmap, h3]
  · intro hnl
    rw [hmap, h3]
    exact split_once_nl_length _ hnl


/-- Claim C1 as stated is false: for the well-formed record `c1data`, the
extracted run lengths sum to 3 (the whole decoded main text) while the body
text after the first newline has length 1. -/
theorem C1_counterexample :
    ((parse_note_content (GzipResult.ok c1data)).toOption.map
      (fun n => ((n.style_runs.map (·.length)).sum, n.text_content.length))) = some (3, 1) ∧
    (3 : Nat) ≠ 1 :=
  ⟨rfl, by decide⟩

/-- Witness for the amended claim C1 at the concrete record `c1data`. -/
theorem C1_witness :
    declared_run_lengths c1data = Except.ok [3] ∧
    (∀ l ∈ [3], 0 < l) ∧
    ([3] : List Nat).sum = (extract_main_text c1data).length ∧
    ∃ runs, extract_style_runs c1data (extract_main_text c1data) = Except.ok runs ∧
      (runs.map (·.length)).sum = (extract_main_text c1data).length :=
  ⟨rfl, by decide, rfl,
    match C1_run_length_sum c1data [3] rfl (by decide) rfl with
    | ⟨runs, hr, hs, _⟩ => ⟨runs, hr, hs⟩⟩

end ClaimC1

section ClaimC5

open NotesExport







theorem land_two_pow_sub_one (x k : Nat) : x &&& (2 ^ k - 1) = x % 2 ^ k := by
  apply Nat.eq_of_testBit_eq
  intro i
  rw [Nat.testBit_and, Nat.testBit_two_pow_sub_one, Nat.testBit_mod_two_pow]
  by_cases hi : i < k <;> simp [hi]

theorem lor_shiftLeft_eq_add (a m s : Nat) (h : a < 2 ^ s) :
    a ||| (m <<< s) = a + m <<< s := by
  apply Nat.eq_of_testBit_eq
  intro i
  rw [Nat.testBit_or, Nat.testBit_shiftLeft, Nat.shiftLeft_eq]
  have hadd : a + m * 2 ^ s = 2 ^ s * m + a := by ring
  rw [hadd, Nat.testBit_mul_pow_two_add m h i]
  by_cases hi : i < s
  · have h2 : ¬ (i ≥ s) := by omega
    simp [hi, h2]
  · have hge : i ≥ s := by omega
    have h3 : a.testBit i = false :=
      Nat.testBit_lt_two_pow
        (lt_of_lt_of_le h (Nat.pow_le_pow_right (by norm_num) (by omega)))
    simp [hi, hge, h3]

theorem byte_land_7f (b : Nat) : b &&& 0x7F = b % 128 := by
  have := land_two_pow_sub_one b 7
  simpa using this

theorem byte_land_80_eq_zero (b : Nat) (hb : b < 128) : b &&& 0x80 = 0 := by
  have ht : b.testBit 7 = false := Nat.testBit_lt_two_pow (by simpa using hb)
  have h := Nat.and_two_pow b 7
  rw [show (0x80 : Nat) = 2 ^ 7 from rfl, h, ht]
  simp

theorem byte_land_80_ne_zero (b : Nat) (h1 : 128 ≤ b) (h2 : b < 256) :
    b &&& 0x80 ≠ 0 := by
  have ht : b.testBit 7 = true := by
    have h7 : (2 : Nat) ^ 7 = 128 := by norm_num
    rw [Nat.testBit_to_div_mod, h7]
    have hd : b / 128 = 1 := by omega
    simp [hd]
  have h := Nat.and_two_pow b 7
  rw [show (0x80 : Nat) = 2 ^ 7 from rfl, h, ht]
  simp

theorem getElem?_append_mid {α : Type} (pre : List α) (b : α) (rest : List α) :
    (pre ++ b :: rest)[pre.length]? = some b := by
  rw [List.getElem?_append]
  simp

theorem encode_varint_go_nonempty : ∀ fuel n, encode_varint_go fuel n ≠ [] := by
  intro fuel n
  cases fuel with
  | zero => simp [encode_varint_go]
  | succ fuel =>
    rw [encode_varint_go]
    split <;> simp

theorem read_varint_go_encode :
    ∀ (efuel n : Nat), n ≤ efuel →
    ∀ (pre post : List Nat) (shift acc gf : Nat),
      acc < 2 ^ shift →
      (encode_varint_go efuel n).length ≤ gf →
      read_varint_go (pre ++ encode_varint_go efuel n ++ post) gf pre.length shift acc =
        .ok (acc + n <<< shift, pre.length + (encode_varint_go efuel n).length) := by
  intro efuel
  induction efuel with
  | zero =>
    intro n hn pre post shift acc gf hacc hgf
    have hn0 : n = 0 := Nat.le_zero.mp hn
    subst hn0
    match gf, hgf with
    | gf + 1, _ =>
      rw [show encode_varint_go 0 0 = [0] from rfl] at *
      rw [read_varint_go]
      have hget : (pre ++ [0] ++ post)[pre.length]? = some 0 := by
        rw [List.append_assoc]
        exact getElem?_append_mid pre 0 post
      simp only [hget]
      rw [if_pos (by simp)]
      simp [lor_shiftLeft_eq_add 0 acc, Nat.shiftLeft_eq]
  | succ efuel ih =>
    intro n hn pre post shift acc gf hacc hgf
    by_cases h128 : n < 128
    · have henc : encode_varint_go (efuel + 1) n = [n] := by
        rw [encode_varint_go, if_pos h128]
      rw [henc] at hgf ⊢
      match gf, hgf with
      | gf + 1, _ =>
        rw [read_varint_go]
        have hget : (pre ++ [n] ++ post)[pre.length]? = some n := by
          rw [List.append_assoc]
          exact getElem?_append_mid pre n post
        simp only [hget]
        have hmod : n % 128 = n := Nat.mod_eq_of_lt h128
        have hzero : n &&& 0x80 = 0 := byte_land_80_eq_zero n h128
        rw [if_pos (by simp [hzero])]
        rw [byte_land_7f, hmod, lor_shiftLeft_eq_add _ _ _ hacc]
        simp
    · have henc : encode_varint_go (efuel + 1) n =
          (n % 128 + 128) :: encode_varint_go efuel (n / 128) := by
        rw [encode_varint_go, if_neg h128]
      rw [henc] at hgf ⊢
      match gf, hgf with
      | gf + 1, hgf =>
        rw [read_varint_go]
        have hget : (pre ++ ((n % 128 + 128) :: encode_varint_go efuel (n / 128)) ++ post)[pre.length]? =
            some (n % 128 + 128) := by
          rw [List.append_assoc]
          exact getElem?_append_mid pre _ _
        simp only [hget]
        have hb7f : (n % 128 + 128) &&& 0x7F = n % 128 := by
          rw [byte_land_7f]
          omega
        have hbne : (n % 128 + 128) &&& 0x80 ≠ 0 :=
          byte_land_80_ne_zero _ (by omega) (by omega)
        rw [if_neg (by simpa using hbne)]
        rw [hb7f, lor_shiftLeft_eq_add _ _ _ hacc]
        have hacc2 : acc + (n % 128) <<< shift < 2 ^ (shift + 7) := by
          rw [Nat.shiftLeft_eq]
          have hm : n % 128 ≤ 127 := by omega
          have h1 : (n % 128) * 2 ^ shift ≤ 127 * 2 ^ shift :=
            Nat.mul_le_mul_right _ hm
          have h2 : (128 : Nat) * 2 ^ shift = 2 ^ (shift + 7) := by
            rw [pow_add]; ring
          omega
        have hdivle : n / 128 ≤ efuel := by omega
        have hrec := ih (n / 128) hdivle (pre ++ [n % 128 + 128]) post (shift + 7)
          (acc + (n % 128) <<< shift) gf hacc2 (by simpa using hgf)
        have hshape : (pre ++ [n % 128 + 128]) ++ encode_varint_go efuel (n / 128) ++ post =
            pre ++ ((n % 128 + 128) :: encode_varint_go efuel (n / 128)) ++ post := by
          simp
        have hlen : (pre ++ [n % 128 + 128]).length = pre.length + 1 := by simp
        rw [hshape, hlen] at hrec
        rw [hrec]
        have hval : acc + (n % 128) <<< shift + (n / 128) <<< (shift + 7) =
            acc + n <<< shift := by
          rw [Nat.shiftLeft_eq, Nat.shiftLeft_eq, Nat.shiftLeft_eq, pow_add]
          conv_rhs => rw [show n = n % 128 + 128 * (n / 128) from (Nat.mod_add_div n 128).symm]
          ring
        rw [hval]
        have : pre.length + 1 + (encode_varint_go efuel (n / 128)).length =
            pre.length + ((n % 128 + 128) :: encode_varint_go efuel (n / 128)).length := by
          simp only [List.length_cons]
          omega
        rw [this]

theorem read_varint_encode (pre post : List Nat) (n : Nat) :
    read_varint (pre ++ encode_varint n ++ post) pre.length =
      .ok (n, pre.length + (encode_varint n).length) := by
  rw [read_varint]
  have hgf : (encode_varint n).length ≤ (pre ++ encode_varint n ++ post).length + 1 := by
    simp [List.length_append]
    omega
  have := read_varint_go_encode n n (le_refl n) pre post 0 0
    ((pre ++ encode_varint n ++ post).length + 1) (by norm_num) hgf
  simpa [encode_varint, Nat.shiftLeft_zero] using this

theorem read_bytes_append (pre bs post : List Nat) :
    read_bytes (pre ++ bs ++ post) pre.length bs.length =
      .ok (bs, pre.length + bs.length) := by
  rw [read_bytes, if_pos (by simp only [List.length_append]; omega)]
  rw [List.append_assoc, List.drop_left]
  rw [List.take_left]

theorem read_varint_go_all_high :
    ∀ (gf : Nat) (data : List Nat) (pos shift acc : Nat),
      (∀ b ∈ data.drop pos, b &&& 0x80 ≠ 0) →
      read_varint_go data gf pos shift acc = .error () := by
  intro gf
  induction gf with
  | zero => intro data pos shift acc _; rfl
  | succ gf ih =>
    intro data pos shift acc h
    rw [read_varint_go]
    cases hget : data[pos]? with
    | none => simp only [hget]
    | some b =>
      simp only [hget]
      have hlt : pos < data.length := (List.getElem?_eq_some.mp hget).1
      have hdropeq : data.drop pos = data[pos] :: data.drop (pos + 1) :=
        List.drop_eq_getElem_cons hlt
      have hbval : data[pos] = b := by
        have := (List.getElem?_eq_some.mp hget).2
        exact this
      have hmem : b ∈ data.drop pos := by
        rw [hdropeq, hbval]
        exact List.mem_cons_self _ _
      have hb := h b hmem
      rw [if_neg (by simpa using hb)]
      apply ih
      intro b2 hb2
      apply h
      rw [hdropeq]
      exact List.mem_cons_of_mem _ hb2

end ClaimC5

section ClaimC5b

open NotesExport

theorem encode_le_length : ∀ k v, (encode_le k v).length = k := by
  intro k
  induction k with
  | zero => intro v; rfl
  | succ k ih => intro v; simp [encode_le, ih]

theorem le_bytes_to_nat_encode_le :
    ∀ k v, v < 256 ^ k → le_bytes_to_nat (encode_le k v) = v := by
  intro k
  induction k with
  | zero =>
    intro v hv
    have hv0 : v = 0 := by simpa [Nat.lt_one_iff] using hv
    subst hv0
    rfl
  | succ k ih =>
    intro v hv
    have hdiv : v / 256 < 256 ^ k := by
      have hp : (256 : Nat) ^ (k + 1) = 256 * 256 ^ k := by rw [pow_succ]; ring
      rw [hp] at hv
      omega
    rw [encode_le, le_bytes_to_nat, ih (v / 256) hdiv]
    omega

theorem tag_shiftRight (num wt : Nat) (h : wt < 8) : (num * 8 + wt) >>> 3 = num := by
  rw [Nat.shiftRight_eq_div_pow]
  have h3 : (2 : Nat) ^ 3 = 8 := by norm_num
  rw [h3]
  omega

theorem tag_land (num wt : Nat) (h : wt < 8) : (num * 8 + wt) &&& 0x07 = wt := by
  have h7 : (0x07 : Nat) = 2 ^ 3 - 1 := by norm_num
  rw [h7, land_two_pow_sub_one]
  have h3 : (2 : Nat) ^ 3 = 8 := by norm_num
  rw [h3]
  omega

theorem encode_varint_ne_nil (n : Nat) : encode_varint n ≠ [] :=
  encode_varint_go_nonempty n n

theorem encode_field_length_pos (f : PBField) : 1 ≤ (encode_field f).length := by
  rw [encode_field]
  have h1 : 1 ≤ (encode_varint (f.1 * 8 + f.2.1)).length :=
    List.length_pos.mpr (encode_varint_ne_nil _)
  simp only [List.length_append]
  omega

theorem read_bytes_append_len (pre bs post : List Nat) (len : Nat) (hlen : bs.length = len) :
    read_bytes (pre ++ bs ++ post) pre.length len = .ok (bs, pre.length + len) := by
  subst hlen
  exact read_bytes_append pre bs post

theorem read_field_encode (num wt : Nat) (value : PBValue)
    (hv : valid_wire_field (num, wt, value) = true) (pre post : List Nat) :
    read_field (pre ++ encode_field (num, wt, value) ++ post) pre.length =
      .ok (some (num, wt, value), pre.length + (encode_field (num, wt, value)).length) := by
  simp only [valid_wire_field, Bool.or_eq_true, Bool.and_eq_true, decide_eq_true_eq] at hv
  have hlen1 : 1 ≤ (encode_field (num, wt, value)).length := encode_field_length_pos _
  rcases hv with ((⟨hwt, hval⟩ | ⟨hwt, hval⟩) | ⟨hwt, hval⟩) | ⟨hwt, hval⟩
  · -- wire type 0: varint payload
    subst hwt
    cases value with
    | bytes bs => simp at hval
    | vint n =>
      have hshape : pre ++ encode_field (num, 0, .vint n) ++ post =
          pre ++ encode_varint (num * 8 + 0) ++ (encode_varint n ++ post) := by
        simp [encode_field]
      rw [read_field, if_neg (by simp only [List.length_append]; omega), hshape]
      rw [read_varint_encode pre (encode_varint n ++ post) (num * 8 + 0)]
      simp only [exceptBind_ok]
      rw [tag_land num 0 (by omega), tag_shiftRight num 0 (by omega)]
      rw [if_pos rfl]
      have hshape2 : pre ++ encode_varint (num * 8 + 0) ++ (encode_varint n ++ post) =
          (pre ++ encode_varint (num * 8 + 0)) ++ encode_varint n ++ post := by
        simp
      have hpos1 : pre.length + (encode_varint (num * 8 + 0)).length =
          (pre ++ encode_varint (num * 8 + 0)).length := by simp
      rw [hshape2, hpos1, read_varint_encode (pre ++ encode_varint (num * 8 + 0)) post n]
      simp only [exceptBind_ok]
      have harith : (pre ++ encode_varint (num * 8 + 0)).length + (encode_varint n).length =
          pre.length + (encode_field (num, 0, .vint n)).length := by
        simp [encode_field, List.length_append]
        omega
      rw [harith]
  · -- wire type 1: 64-bit payload
    subst hwt
    cases value with
    | bytes bs => simp at hval
    | vint n =>
      have hshape : pre ++ encode_field (num, 1, .vint n) ++ post =
          pre ++ encode_varint (num * 8 + 1) ++ (encode_le 8 n ++ post) := by
        simp [encode_field]
      rw [read_field, if_neg (by simp only [List.length_append]; omega), hshape]
      rw [read_varint_encode pre (encode_le 8 n ++ post) (num * 8 + 1)]
      simp only [exceptBind_ok]
      rw [tag_land num 1 (by omega), tag_shiftRight num 1 (by omega)]
      rw [if_neg (by omega), if_pos rfl]
      have hshape2 : pre ++ encode_varint (num * 8 + 1) ++ (encode_le 8 n ++ post) =
          (pre ++ encode_varint (num * 8 + 1)) ++ encode_le 8 n ++ post := by
        simp
      have hpos1 : pre.length + (encode_varint (num * 8 + 1)).length =
          (pre ++ encode_varint (num * 8 + 1)).length := by simp
      rw [hshape2, hpos1,
        read_bytes_append_len (pre ++ encode_varint (num * 8 + 1)) (encode_le 8 n) post 8
          (encode_le_length 8 n)]
      simp only [exceptBind_ok]
      have hn64 : n < 2 ^ 64 := by simpa using hval
      have hn : le_bytes_to_nat (encode_le 8 n) = n :=
        le_bytes_to_nat_encode_le 8 n
          (by rw [show (256 : Nat) ^ 8 = 2 ^ 64 from by norm_num]; exact hn64)
      rw [hn]
      have harith : (pre ++ encode_varint (num * 8 + 1)).length + 8 =
          pre.length + (encode_field (num, 1, .vint n)).length := by
        simp [encode_field, encode_le_length, List.length_append]
        omega
      rw [harith]
  · -- wire type 2: length-delimited payload
    subst hwt
    cases value with
    | vint n => simp at hval
    | bytes bs =>
      have hshape : pre ++ encode_field (num, 2, .bytes bs) ++ post =
          pre ++ encode_varint (num * 8 + 2) ++ (encode_varint bs.length ++ (bs ++ post)) := by
        simp [encode_field]
      rw [read_field, if_neg (by simp only [List.length_append]; omega), hshape]
      rw [read_varint_encode pre (encode_varint bs.length ++ (bs ++ post)) (num * 8 + 2)]
      simp only [exceptBind_ok]
      rw [tag_land num 2 (by omega), tag_shiftRight num 2 (by omega)]
      rw [if_neg (by omega), if_neg (by omega), if_pos rfl]
      have hshape2 : pre ++ encode_varint (num * 8 + 2) ++ (encode_varint bs.length ++ (bs ++ post)) =
          (pre ++ encode_varint (num * 8 + 2)) ++ encode_varint bs.length ++ (bs ++ post) := by
        simp
      have hpos1 : pre.length + (encode_varint (num * 8 + 2)).length =
          (pre ++ encode_varint (num * 8 + 2)).length := by simp
      rw [hshape2, hpos1,
        read_varint_encode (pre ++ encode_varint (num * 8 + 2)) (bs ++ post) bs.length]
      simp only [exceptBind_ok]
      have hshape3 : (pre ++ encode_varint (num * 8 + 2)) ++ encode_varint bs.length ++ (bs ++ post) =
          ((pre ++ encode_varint (num * 8 + 2)) ++ encode_varint bs.length) ++ bs ++ post := by
        simp
      have hpos2 : (pre ++ encode_varint (num * 8 + 2)).length + (encode_varint bs.length).length =
          ((pre ++ encode_varint (num * 8 + 2)) ++ encode_varint bs.length).length := by
        simp only [List.length_append]
      rw [hshape3, hpos2,
        read_bytes_append ((pre ++ encode_varint (num * 8 + 2)) ++ encode_varint bs.length) bs post]
      simp only [exceptBind_ok]
      have harith : ((pre ++ encode_varint (num * 8 + 2)) ++ encode_varint bs.length).length + bs.length =
          pre.length + (encode_field (num, 2, .bytes bs)).length := by
        simp [encode_field, List.length_append]
        omega
      rw [harith]
  · -- wire type 5: 32-bit payload
    subst hwt
    cases value with
    | bytes bs => simp at hval
    | vint n =>
      have hshape : pre ++ encode_field (num, 5, .vint n) ++ post =
          pre ++ encode_varint (num * 8 + 5) ++ (encode_le 4 n ++ post) := by
        simp [encode_field]
      rw [read_field, if_neg (by simp only [List.length_append]; omega), hshape]
      rw [read_varint_encode pre (encode_le 4 n ++ post) (num * 8 + 5)]
      simp only [exceptBind_ok]
      rw [tag_land num 5 (by omega), tag_shiftRight num 5 (by omega)]
      rw [if_neg (by omega), if_neg (by omega), if_neg (by omega), if_pos rfl]
      have hshape2 : pre ++ encode_varint (num * 8 + 5) ++ (encode_le 4 n ++ post) =
          (pre ++ encode_varint (num * 8 + 5)) ++ encode_le 4 n ++ post := by
        simp
      have hpos1 : pre.length + (encode_varint (num * 8 + 5)).length =
          (pre ++ encode_varint (num * 8 + 5)).length := by simp
      rw [hshape2, hpos1,
        read_bytes_append_len (pre ++ encode_varint (num * 8 + 5)) (encode_le 4 n) post 4
          (encode_le_length 4 n)]
      simp only [exceptBind_ok]
      have hn32 : n < 2 ^ 32 := by simpa using hval
      have hn : le_bytes_to_nat (encode_le 4 n) = n :=
        le_bytes_to_nat_encode_le 4 n
          (by rw [show (256 : Nat) ^ 4 = 2 ^ 32 from by norm_num]; exact hn32)
      rw [hn]
      have harith : (pre ++ encode_varint (num * 8 + 5)).length + 4 =
          pre.length + (encode_field (num, 5, .vint n)).length := by
        simp [encode_field, encode_le_length, List.length_append]
        omega
      rw [harith]

end ClaimC5b

section ClaimC5c

open NotesExport

theorem read_varint_fail_tail (pre post : List Nat)
    (hpost : ∀ b ∈ post, b &&& 0x80 ≠ 0) :
    read_varint (pre ++ post) pre.length = .error () := by
  rw [read_varint]
  apply read_varint_go_all_high
  rw [List.drop_left]
  exact hpost

theorem read_field_fail_tail (pre post : List Nat) (hne : post ≠ [])
    (hpost : ∀ b ∈ post, b &&& 0x80 ≠ 0) :
    read_field (pre ++ post) pre.length = .error () := by
  have hlp := List.length_pos.mpr hne
  rw [read_field, if_neg (by simp only [List.length_append]; omega)]
  rw [read_varint_fail_tail pre post hpost]
  rfl

theorem encode_field_length_ge_two (f : PBField) (hv : valid_wire_field f = true) :
    2 ≤ (encode_field f).length := by
  obtain ⟨num, wt, value⟩ := f
  simp only [valid_wire_field, Bool.or_eq_true, Bool.and_eq_true, decide_eq_true_eq] at hv
  have htag : 1 ≤ (encode_varint (num * 8 + wt)).length :=
    List.length_pos.mpr (encode_varint_ne_nil _)
  rcases hv with ((⟨hwt, hval⟩ | ⟨hwt, hval⟩) | ⟨hwt, hval⟩) | ⟨hwt, hval⟩
  · subst hwt
    cases value with
    | bytes bs => simp at hval
    | vint n =>
      have hp : 1 ≤ (encode_varint n).length := List.length_pos.mpr (encode_varint_ne_nil _)
      simp only [encode_field, List.length_append]
      omega
  · subst hwt
    cases value with
    | bytes bs => simp at hval
    | vint n =>
      simp only [encode_field, List.length_append, encode_le_length]
      omega
  · subst hwt
    cases value with
    | vint n => simp at hval
    | bytes bs =>
      have hp : 1 ≤ (encode_varint bs.length).length :=
        List.length_pos.mpr (encode_varint_ne_nil _)
      simp only [encode_field, List.length_append]
      omega
  · subst hwt
    cases value with
    | bytes bs => simp at hval
    | vint n =>
      simp only [encode_field, List.length_append, encode_le_length]
      omega

theorem encode_fields_length_ge (fs : List PBField) (hv : fs.all valid_wire_field = true) :
    2 * fs.length ≤ (encode_fields fs).length := by
  induction fs with
  | nil => simp [encode_fields]
  | cons f fs ih =>
    obtain ⟨hvf, hvfs⟩ : valid_wire_field f = true ∧ fs.all valid_wire_field = true := by
      simpa using hv
    have h2 := encode_field_length_ge_two f hvf
    have hih := ih hvfs
    simp only [encode_fields, List.map_cons, List.flatten_cons, List.length_append,
      List.length_cons]
    simp only [encode_fields] at hih
    omega

theorem parse_all_go_encode (post : List Nat) (hpost : ∀ b ∈ post, b &&& 0x80 ≠ 0) :
    ∀ (fs : List PBField) (pre : List Nat) (gf : Nat),
      fs.all valid_wire_field = true →
      fs.length < gf →
      parse_all_go (pre ++ encode_fields fs ++ post) gf pre.length = fs := by
  intro fs
  induction fs with
  | nil =>
    intro pre gf _ hgf
    match gf, hgf with
    | gf + 1, _ =>
      rw [parse_all_go]
      rw [show encode_fields ([] : List PBField) = [] from rfl, List.append_nil]
      by_cases hp : post = []
      · subst hp
        rw [if_neg (by simp)]
      · have hlp := List.length_pos.mpr hp
        rw [if_pos (by simp only [List.length_append]; omega)]
        rw [read_field_fail_tail pre post hp hpost]
  | cons f fs ih =>
    intro pre gf hv hgf
    obtain ⟨hvf, hvfs⟩ : valid_wire_field f = true ∧ fs.all valid_wire_field = true := by
      simpa using hv
    match gf, hgf with
    | gf + 1, hgf =>
      rw [parse_all_go]
      have hshape : pre ++ encode_fields (f :: fs) ++ post =
          pre ++ encode_field f ++ (encode_fields fs ++ post) := by
        simp [encode_fields]
      rw [hshape]
      have hflen := encode_field_length_pos f
      rw [if_pos (by simp only [List.length_append]; omega)]
      obtain ⟨num, wt, value⟩ := f
      simp only [read_field_encode num wt value hvf pre (encode_fields fs ++ post)]
      have hpre2 : pre.length + (encode_field (num, wt, value)).length =
          (pre ++ encode_field (num, wt, value)).length := by simp
      have hshape2 : pre ++ encode_field (num, wt, value) ++ (encode_fields fs ++ post) =
          (pre ++ encode_field (num, wt, value)) ++ encode_fields fs ++ post := by simp
      rw [hpre2, hshape2]
      rw [ih (pre ++ encode_field (num, wt, value)) gf hvfs
        (by simp only [List.length_cons] at hgf; omega)]

/-- Claim C5: `parse_all` is a total function returning the list of decoded
fields (decode errors are caught inside the loop, never propagated), and on a
buffer holding encoded fields followed by a truncated varint — a non-empty
run of continuation bytes — it returns exactly the fields decoded before the
truncation point. -/
theorem C5_parse_all_keeps_decoded_prefix (fs : List PBField) (tail : List Nat)
    (hv : fs.all valid_wire_field = true)
    (ht : ∀ b ∈ tail, b &&& 0x80 ≠ 0) :
    parse_all (encode_fields fs ++ tail) = fs := by
  rw [parse_all]
  by_cases hempty : encode_fields fs ++ tail = []
  · have hfs : fs = [] := by
      cases fs with
      | nil => rfl
      | cons f fs2 =>
        exfalso
        have h2 : 2 ≤ (encode_fields (f :: fs2)).length := by
          have := encode_fields_length_ge (f :: fs2) hv
          simp only [List.length_cons] at this
          omega
        have : (encode_fields (f :: fs2) ++ tail).length = 0 := by rw [hempty]; rfl
        simp only [List.length_append] at this
        omega
    subst hfs
    have htail : tail = [] := by
      have h0 : encode_fields ([] : List PBField) = [] := rfl
      rw [h0, List.nil_append] at hempty
      exact hempty
    subst htail
    rfl
  · have hlen : fs.length < (encode_fields fs ++ tail).length := by
      have hge := encode_fields_length_ge fs hv
      cases fs with
      | nil =>
        have htail : tail ≠ [] := by
          intro hh
          apply hempty
          rw [hh, List.append_nil]
          rfl
        have hlp := List.length_pos.mpr htail
        have h0 : (encode_fields ([] : List PBField)).length = 0 := rfl
        simp only [List.length_append, List.length_nil, h0]
        omega
      | cons f fs2 =>
        simp only [List.length_append, List.length_cons]
        simp only [List.length_cons] at hge
        omega
    have := parse_all_go_encode tail ht fs [] ((encode_fields fs ++ tail).length) hv hlen
    simpa using this



/-- Witness for claim C5 at a concrete buffer truncated mid-varint. -/
theorem C5_witness :
    c5fields.all valid_wire_field = true ∧
    (∀ b ∈ c5tail, b &&& 0x80 ≠ 0) ∧
    parse_all (encode_fields c5fields ++ c5tail) = c5fields :=
  ⟨by decide, by decide,
    C5_parse_all_keeps_decoded_prefix c5fields c5tail (by decide) (by decide)⟩

end ClaimC5c
